import Mathlib

/-!
Verification of the state-space engine of tinyControl
(`src/tcontrol/statespace.py`) against its natural-language specification.

Matrices are shallowly embedded as dense rational matrices with explicit
row/column counts (`Mat`), mirroring `numpy.matrix` values.  Operations that
the Python code performs with `numpy` are translated entry by entry; code
paths that raise Python exceptions are modelled with `Except`.
-/

namespace TinyControl

/-- A dense rational matrix in row-major form, mirroring a `numpy.matrix`
value: an explicit shape together with the stored entries. -/
structure Mat where
  rows : Nat
  cols : Nat
  data : List (List ℚ)
deriving DecidableEq

/-- Entry access; out-of-range reads default to `0` (they never occur in the
translated code, which always indexes within bounds). -/
def Mat.entry (M : Mat) (i j : Nat) : ℚ := (M.data.getD i []).getD j 0

/-- Build a matrix from an entry function. -/
def Mat.ofFn (r c : Nat) (f : Nat → Nat → ℚ) : Mat :=
  ⟨r, c, (List.range r).map fun i => (List.range c).map fun j => f i j⟩

@[simp] theorem Mat.rows_ofFn (r c : Nat) (f : Nat → Nat → ℚ) :
    (Mat.ofFn r c f).rows = r := rfl

@[simp] theorem Mat.cols_ofFn (r c : Nat) (f : Nat → Nat → ℚ) :
    (Mat.ofFn r c f).cols = c := rfl

theorem Mat.entry_ofFn (r c : Nat) (f : Nat → Nat → ℚ) (i j : Nat)
    (hi : i < r) (hj : j < c) : (Mat.ofFn r c f).entry i j = f i j := by
  simp [Mat.ofFn, Mat.entry, List.getD_eq_getElem?_getD, List.getElem?_map,
    List.getElem?_range, hi, hj]

theorem Mat.ofFn_congr {r c : Nat} {f g : Nat → Nat → ℚ}
    (h : ∀ i < r, ∀ j < c, f i j = g i j) : Mat.ofFn r c f = Mat.ofFn r c g := by
  unfold Mat.ofFn
  refine congrArg _ ?_
  refine List.map_congr_left fun i hi => ?_
  refine List.map_congr_left fun j hj => ?_
  exact h i (List.mem_range.mp hi) j (List.mem_range.mp hj)

/-! ### Matrix operations used by `statespace.py` (numpy semantics) -/

/-- `numpy` matrix transpose. -/
def Mat.transpose (M : Mat) : Mat := Mat.ofFn M.cols M.rows fun i j => M.entry j i

/-- Entry-wise sum (`numpy` `+` on equal-shaped matrices). -/
def Mat.add (M N : Mat) : Mat := Mat.ofFn M.rows M.cols fun i j => M.entry i j + N.entry i j

/-- Entry-wise difference. -/
def Mat.sub (M N : Mat) : Mat := Mat.ofFn M.rows M.cols fun i j => M.entry i j - N.entry i j

/-- Scalar multiple. -/
def Mat.scale (c : ℚ) (M : Mat) : Mat := Mat.ofFn M.rows M.cols fun i j => c * M.entry i j

/-- Entry-wise negation (`numpy` unary `-`). -/
def Mat.neg (M : Mat) : Mat := Mat.ofFn M.rows M.cols fun i j => -(M.entry i j)

/-- Matrix product (`numpy` `*` on `np.matrix`); callers are responsible for
the inner dimensions agreeing, as in the Python code where a mismatch
raises a `ValueError`. -/
def Mat.mul (M N : Mat) : Mat :=
  Mat.ofFn M.rows N.cols fun i j =>
    ((List.range M.cols).map fun t => M.entry i t * N.entry t j).sum

/-- Identity matrix (`np.eye`). -/
def Mat.eye (n : Nat) : Mat := Mat.ofFn n n fun i j => if i = j then 1 else 0

/-- Zero matrix (`np.zeros`). -/
def Mat.zeros (r c : Nat) : Mat := Mat.ofFn r c fun _ _ => 0

/-- Vertical concatenation (`np.concatenate(..., axis=0)`). -/
def Mat.vconcat (M N : Mat) : Mat :=
  Mat.ofFn (M.rows + N.rows) M.cols fun i j =>
    if i < M.rows then M.entry i j else N.entry (i - M.rows) j

/-- Horizontal concatenation (`np.concatenate(..., axis=1)`). -/
def Mat.hconcat (M N : Mat) : Mat :=
  Mat.ofFn M.rows (M.cols + N.cols) fun i j =>
    if j < M.cols then M.entry i j else N.entry i (j - M.cols)

/-- The 2×2 block matrix `[[M, UR], [0, N]]` built by `__add__`/`__mul__`
as `np.zeros` followed by slice assignments. -/
def Mat.block2 (M UR N : Mat) : Mat :=
  Mat.ofFn (M.rows + N.rows) (M.cols + N.cols) fun i j =>
    if i < M.rows then
      (if j < M.cols then M.entry i j else UR.entry i (j - M.cols))
    else
      (if j < M.cols then 0 else N.entry (i - M.rows) (j - M.cols))

/-- Block-diagonal matrix, the `UR = 0` case of `Mat.block2` (built by
`__add__`). -/
def Mat.blockDiag (M N : Mat) : Mat :=
  Mat.ofFn (M.rows + N.rows) (M.cols + N.cols) fun i j =>
    if i < M.rows then
      (if j < M.cols then M.entry i j else 0)
    else
      (if j < M.cols then 0 else N.entry (i - M.rows) (j - M.cols))

/-- Matrix power (`np.matrix ** i`). -/
def Mat.pow (M : Mat) : Nat → Mat
  | 0 => Mat.eye M.rows
  | k + 1 => (M.pow k).mul M

/-- Entry function of the minor obtained by deleting row `r` and column `c`. -/
def minorFn (f : Nat → Nat → ℚ) (r c : Nat) : Nat → Nat → ℚ :=
  fun i j => f (if i < r then i else i + 1) (if j < c then j else j + 1)

/-- Determinant of the upper-left `n × n` block of an entry function, by
Laplace expansion along the first row. -/
def detN : Nat → (Nat → Nat → ℚ) → ℚ
  | 0, _ => 1
  | n + 1, f =>
    ((List.range (n + 1)).map fun j => (-1 : ℚ) ^ j * f 0 j * detN n (minorFn f 0 j)).sum

/-- Determinant of a (square) matrix. -/
def Mat.det (M : Mat) : ℚ := detN M.rows M.entry

/-- Matrix inverse of a square matrix via the adjugate, `none` for a
singular matrix.  Models `np.matrix.I` / `np.linalg.inv`, which raise
`LinAlgError` exactly on singular input (all call sites in the translated
code apply it to square matrices). -/
def Mat.inv (M : Mat) : Option Mat :=
  if M.det = 0 then none
  else some (Mat.ofFn M.rows M.rows fun i j =>
    (-1 : ℚ) ^ (i + j) * detN (M.rows - 1) (minorFn M.entry j i) / M.det)

@[simp] theorem Mat.rows_transpose (M : Mat) : M.transpose.rows = M.cols := rfl
@[simp] theorem Mat.cols_transpose (M : Mat) : M.transpose.cols = M.rows := rfl
@[simp] theorem Mat.rows_add (M N : Mat) : (M.add N).rows = M.rows := rfl
@[simp] theorem Mat.cols_add (M N : Mat) : (M.add N).cols = M.cols := rfl
@[simp] theorem Mat.rows_sub (M N : Mat) : (M.sub N).rows = M.rows := rfl
@[simp] theorem Mat.cols_sub (M N : Mat) : (M.sub N).cols = M.cols := rfl
@[simp] theorem Mat.rows_scale (c : ℚ) (M : Mat) : (M.scale c).rows = M.rows := rfl
@[simp] theorem Mat.cols_scale (c : ℚ) (M : Mat) : (M.scale c).cols = M.cols := rfl
@[simp] theorem Mat.rows_neg (M : Mat) : M.neg.rows = M.rows := rfl
@[simp] theorem Mat.cols_neg (M : Mat) : M.neg.cols = M.cols := rfl
@[simp] theorem Mat.rows_mul (M N : Mat) : (M.mul N).rows = M.rows := rfl
@[simp] theorem Mat.cols_mul (M N : Mat) : (M.mul N).cols = N.cols := rfl
@[simp] theorem Mat.rows_eye (n : Nat) : (Mat.eye n).rows = n := rfl
@[simp] theorem Mat.cols_eye (n : Nat) : (Mat.eye n).cols = n := rfl
@[simp] theorem Mat.rows_zeros (r c : Nat) : (Mat.zeros r c).rows = r := rfl
@[simp] theorem Mat.cols_zeros (r c : Nat) : (Mat.zeros r c).cols = c := rfl
@[simp] theorem Mat.rows_vconcat (M N : Mat) : (M.vconcat N).rows = M.rows + N.rows := rfl
@[simp] theorem Mat.cols_vconcat (M N : Mat) : (M.vconcat N).cols = M.cols := rfl
@[simp] theorem Mat.rows_hconcat (M N : Mat) : (M.hconcat N).rows = M.rows := rfl
@[simp] theorem Mat.cols_hconcat (M N : Mat) : (M.hconcat N).cols = M.cols + N.cols := rfl
@[simp] theorem Mat.rows_block2 (M UR N : Mat) : (M.block2 UR N).rows = M.rows + N.rows := rfl
@[simp] theorem Mat.cols_block2 (M UR N : Mat) : (M.block2 UR N).cols = M.cols + N.cols := rfl
@[simp] theorem Mat.rows_blockDiag (M N : Mat) : (M.blockDiag N).rows = M.rows + N.rows := rfl
@[simp] theorem Mat.cols_blockDiag (M N : Mat) : (M.blockDiag N).cols = M.cols + N.cols := rfl

theorem Mat.rows_inv {M N : Mat} (h : M.inv = some N) : N.rows = M.rows := by
  unfold Mat.inv at h
  by_cases hd : M.det = 0
  · simp [hd] at h
  · simp [hd] at h; subst h; rfl

theorem Mat.cols_inv {M N : Mat} (h : M.inv = some N) : N.cols = M.rows := by
  unfold Mat.inv at h
  by_cases hd : M.det = 0
  · simp [hd] at h
  · simp [hd] at h; subst h; rfl

theorem Mat.inv_eq_none_iff (M : Mat) : M.inv = none ↔ M.det = 0 := by
  unfold Mat.inv
  by_cases hd : M.det = 0 <;> simp [hd]

/-! ### The state-space model -/

/-- The errors raised by the translated code, following the spec's error
taxonomy (`tcontrol/exception.py` itself is not under `src/`; each
constructor corresponds to a concrete `raise` site in `statespace.py` or to
an exception raised inside numpy there). -/
inductive Err where
  /-- `ValueError` for a shape violation: the four constructor checks, the
  `__add__` D-shape check, the `__mul__` outputs/inputs guard, and numpy's
  shapes-not-aligned error from an incompatible matrix product. -/
  | shapeMismatch
  /-- `ValueError("different sampling times")` in `__add__` / `__mul__`. -/
  | incompatibleSamplingTime
  /-- `LinAlgError` from `F.I` in `feedback`. -/
  | singularFeedbackLoop
  /-- `LinAlgError` from the inversions in `to_controllable_form` /
  `place`. -/
  | notControllable
  /-- `ValueError` from broadcasting `p[::-1] + a` with mismatched lengths
  in `place`. -/
  | dimension
  /-- Python `TypeError` (scalar conversion in `_convert_to_ss`, or a
  symbolic entry surviving into `np.asarray(..., dtype=float)` in
  `lyapunov`). -/
  | typeErr
deriving DecidableEq

/-- A constructed state-space model.  The base class `LinearTimeInvariant`
(`tcontrol/lti.py`, not under `src/`) stores the values passed by
`StateSpace.__init__` via `super().__init__(B.shape[1], C.shape[0], dt)`;
it is modelled by the `dt` field and the derived `inputs`/`outputs`
below. -/
structure StateSpace where
  A : Mat
  B : Mat
  C : Mat
  D : Mat
  dt : Option ℚ
deriving DecidableEq

/-- Input count, `B.shape[1]` (stored on the LTI base class). -/
def StateSpace.inputs (s : StateSpace) : Nat := s.B.cols

/-- Output count, `C.shape[0]` (stored on the LTI base class). -/
def StateSpace.outputs (s : StateSpace) : Nat := s.C.rows

/-- `StateSpace.__init__`: the four shape checks, in source order, then the
model is built from exactly the given matrices. -/
def mkStateSpace (A B C D : Mat) (dt : Option ℚ) : Except Err StateSpace :=
  if A.rows ≠ A.cols then .error .shapeMismatch
  else if B.rows ≠ A.rows then .error .shapeMismatch
  else if C.cols ≠ A.rows then .error .shapeMismatch
  else if ¬(D.rows = C.rows ∧ D.cols = B.cols) then .error .shapeMismatch
  else .ok ⟨A, B, C, D, dt⟩

/-- The construction invariants, as maintained by every model the
constructor accepts. -/
def StateSpace.WF (s : StateSpace) : Prop :=
  s.A.rows = s.A.cols ∧ s.B.rows = s.A.rows ∧ s.C.cols = s.A.rows ∧
  s.D.rows = s.C.rows ∧ s.D.cols = s.B.cols

instance (s : StateSpace) : Decidable s.WF := by unfold StateSpace.WF; infer_instance

theorem mkStateSpace_ok_iff (A B C D : Mat) (dt : Option ℚ) (s : StateSpace) :
    mkStateSpace A B C D dt = .ok s ↔
      (A.rows = A.cols ∧ B.rows = A.rows ∧ C.cols = A.rows ∧
       D.rows = C.rows ∧ D.cols = B.cols) ∧ s = ⟨A, B, C, D, dt⟩ := by
  unfold mkStateSpace
  split_ifs with h1 h2 h3 h4 <;> simp_all
  tauto

theorem mkStateSpace_wf {A B C D : Mat} {dt : Option ℚ} {s : StateSpace}
    (h : mkStateSpace A B C D dt = .ok s) : s.WF := by
  rcases (mkStateSpace_ok_iff A B C D dt s).mp h with ⟨hc, rfl⟩
  exact hc

/-- The sampling-time reconciliation of `__add__` (lines 81–86) and
`__mul__` (lines 106–112), translated branch by branch (Python's
`and`/`or` precedence kept). -/
def reconcileDt (d1 d2 : Option ℚ) : Except Err (Option ℚ) :=
  if d1 = none ∧ d2 ≠ none then .ok d2
  else if (d1 ≠ none ∧ d2 = none) ∨ d1 = d2 then .ok d1
  else .error .incompatibleSamplingTime

/-- `__eq__`: `np.array_equal` on each of A, B, C, D (shape plus entries,
which structural equality of `Mat` captures); `dt` is never consulted. -/
def StateSpace.eq (self other : StateSpace) : Bool :=
  self.A == other.A && self.B == other.B && self.C == other.C && self.D == other.D

/-- `__add__` (parallel connection), translated in source order. -/
def StateSpace.add (self other : StateSpace) : Except Err StateSpace :=
  if ¬(self.D.rows = other.D.rows ∧ self.D.cols = other.D.cols) then
    .error .shapeMismatch
  else do
    let dt ← reconcileDt self.dt other.dt
    mkStateSpace (self.A.blockDiag other.A) (self.B.vconcat other.B)
      (self.C.hconcat other.C) (self.D.add other.D) dt

/-- `__mul__` (series connection) on two state-space models, translated in
source order: the outputs/inputs guard, the sampling-time reconciliation,
the four matrix products (numpy raises shapes-not-aligned, given the
construction invariants, exactly when `self.B.cols ≠ other.C.rows`), and
the final constructor call — which receives the *transposes* of the
computed B and C, in swapped positions, exactly as in the source
(`return StateSpace(A, C.T, B.T, D, dt=dt)`). -/
def StateSpace.mul (self other : StateSpace) : Except Err StateSpace :=
  if self.outputs ≠ other.inputs then .error .shapeMismatch
  else do
    let dt ← reconcileDt self.dt other.dt
    if self.B.cols ≠ other.C.rows then .error .shapeMismatch
    else
      let A := self.A.block2 (self.B.mul other.C) other.A
      let B := other.B.vconcat (self.B.mul other.D)
      let C := (self.D.mul other.C).hconcat self.C
      let D := self.D.mul other.D
      mkStateSpace A C.transpose B.transpose D dt

/-- The loop matrix `F = np.eye(self.inputs) - sign * k.D * self.D` of
`feedback` (line 134 of the source). -/
def feedbackF (self k : StateSpace) (sign : ℚ) : Mat :=
  (Mat.eye self.inputs).sub ((k.D.mul self.D).scale sign)

/-- The loop-closing algebra of `feedback` after `F.I` has succeeded
(lines 136–160 of the source), ending in the constructor call that passes
no `dt`. -/
def feedbackAssemble (self k : StateSpace) (sign : ℚ) (F_inv : Mat) :
    Except Err StateSpace :=
      let F_inv_D2 := F_inv.mul k.D
      let F_inv_C2 := F_inv.mul k.C
      let F_inv_D2_C1 := F_inv_D2.mul self.C
      let F_inv_D2_D1 := F_inv_D2.mul self.D
      let signed_B1 := self.B.scale sign
      let signed_D1 := self.D.scale sign
      let A1 := self.A.add (signed_B1.mul F_inv_D2_C1)
      let A2 := signed_B1.mul F_inv_C2
      let A3 := k.B.mul (self.C.add (signed_D1.mul F_inv_D2_C1))
      let A4 := k.A.add (((k.B.mul self.D).mul F_inv_C2).scale sign)
      let A := (A1.vconcat A3).hconcat (A2.vconcat A4)
      let B1 := self.B.add (signed_B1.mul F_inv_D2_D1)
      let B2 := (k.B.mul self.D).add ((((k.B.mul self.D).mul F_inv_D2_D1)).scale sign)
      let B := B1.vconcat B2
      let C1 := self.C.add (signed_D1.mul F_inv_D2_C1)
      let C2 := signed_D1.mul F_inv_C2
      let C := C1.hconcat C2
      let D := self.D.add (signed_D1.mul F_inv_D2_D1)
      mkStateSpace A B C D none

/-- `feedback(self, k, sign)`, translated in source order: compute `F`,
invert it (`LinAlgError` on a singular `F` is the spec's
`SingularFeedbackLoop`), then run the block algebra.  The initial guard
records where numpy itself would fail for a compensator of incompatible
shape: `k.D * self.D` needs `k.D.cols = self.D.rows`, and subtracting the
product from `np.eye(self.inputs)` needs `k.D.rows = self.inputs` (numpy
would broadcast a one-row `k.D`; the claims quantify over shape-compatible
compensators, where no broadcast happens). -/
def StateSpace.feedback (self k : StateSpace) (sign : ℚ) : Except Err StateSpace :=
  if ¬(k.D.cols = self.D.rows ∧ k.D.rows = self.inputs) then .error .shapeMismatch
  else
    match (feedbackF self k sign).inv with
    | none => .error .singularFeedbackLoop
    | some F_inv => feedbackAssemble self k sign F_inv

/-- `_convert_to_ss` on a plain scalar.  The source builds the C matrix
with `np.zeros(outputs, 1)`: the integer `1` lands in numpy's `dtype`
argument, and `np.zeros` raises `TypeError` (`"data type not understood"`)
before any model is constructed, whatever the scalar is. -/
def convertScalarToSS (_g : ℚ) : Except Err StateSpace := .error .typeErr

/-- `self * g` for a plain scalar right operand: `__mul__` first calls
`_convert_to_ss(other)` and only then applies the series algebra. -/
def StateSpace.mulScalar (self : StateSpace) (g : ℚ) : Except Err StateSpace := do
  let other ← convertScalarToSS g
  self.mul other

/-- `controllability()`: `[B, A*B, A^2*B, ..., A^(n-1)*B]`, built by the
source's loop `for i in range(1, n)` around horizontal concatenation. -/
def StateSpace.controllability (s : StateSpace) : Mat :=
  (List.range (s.A.rows - 1)).foldl
    (fun acc i => acc.hconcat ((s.A.pow (i + 1)).mul s.B)) s.B

/-- `to_controllable_form()`: invert the controllability matrix (a
`LinAlgError` here is the spec's `NotControllable`), take its last row
`p`, build the matrix with rows `p * A^i`, and invert that.  (For the
single-input systems the claims address, the controllability matrix is
square, so `np.matrix.I` is `np.linalg.inv`.) -/
def StateSpace.to_controllable_form (s : StateSpace) : Except Err Mat :=
  match s.controllability.inv with
  | none => .error .notControllable
  | some M =>
    let n := s.A.rows
    let T0 := Mat.ofFn n n fun i j =>
      ((Mat.ofFn 1 n fun _ c => M.entry (n - 1) c).mul (s.A.pow i)).entry 0 j
    match T0.inv with
    | none => .error .notControllable
    | some T => .ok T

/-- `np.poly(roots)`: monic polynomial coefficients (highest degree
first) from a root list, by repeated multiplication with `(x - r)`. -/
def polyFromRoots (roots : List ℚ) : List ℚ :=
  roots.foldl
    (fun acc r => List.zipWith (· - ·) (acc ++ [0]) ((0 :: acc).map (r * ·))) [1]

/-- The gain row vector `K` computed by `place` in companion coordinates:
`np.poly(poles)[1:]` reversed twice (the source reverses `p` and then
reverses it back), added to the last row `a` of `T.I * A * T`.  When the
coefficient list has length `n` the sum is entry-wise; when it has length
1 numpy broadcasting adds the single coefficient to every entry of `a`. -/
def companionGain (s : StateSpace) (poles : List ℚ) (T Ti : Mat) : Mat :=
  let n := s.A.rows
  let Ac := (Ti.mul s.A).mul T
  let q := (polyFromRoots poles).drop 1
  Mat.ofFn 1 n fun _ j =>
    (if q.length = n then q.getD j 0 else q.getD 0 0) + Ac.entry (n - 1) j

/-- `place(poles)`, translated in source order: `to_controllable_form`
first, then `T.I` (another potential `LinAlgError`), then the coefficient
arithmetic — `K = p[::-1] + a` raises a broadcast `ValueError` exactly
when the coefficient list length is neither `n` nor `1` — and finally
`K * T.I`. -/
def StateSpace.place (s : StateSpace) (poles : List ℚ) : Except Err Mat :=
  match s.to_controllable_form with
  | .error e => .error e
  | .ok T =>
    match T.inv with
    | none => .error .notControllable
    | some Ti =>
      let q := (polyFromRoots poles).drop 1
      if q.length = s.A.rows ∨ q.length = 1 then
        .ok ((companionGain s poles T Ti).mul Ti)
      else .error .dimension

/-! ### Behaviour of the sampling-time reconciliation -/

theorem reconcileDt_none_left {d2 : Option ℚ} (h : d2 ≠ none) :
    reconcileDt none d2 = .ok d2 := by
  unfold reconcileDt
  rw [if_pos ⟨rfl, h⟩]

theorem reconcileDt_none_right (d1 : Option ℚ) : reconcileDt d1 none = .ok d1 := by
  unfold reconcileDt
  rcases Option.eq_none_or_eq_some d1 with h | ⟨x, h⟩ <;> subst h <;> simp

theorem reconcileDt_same (d : Option ℚ) : reconcileDt d d = .ok d := by
  unfold reconcileDt
  rcases Option.eq_none_or_eq_some d with h | ⟨x, h⟩ <;> subst h <;> simp

theorem reconcileDt_diff {x y : ℚ} (h : x ≠ y) :
    reconcileDt (some x) (some y) = .error .incompatibleSamplingTime := by
  unfold reconcileDt
  simp [h]

theorem reconcileDt_isOk (d1 d2 : Option ℚ)
    (h : d1 = none ∨ d2 = none ∨ d1 = d2) : ∃ d, reconcileDt d1 d2 = .ok d := by
  rcases h with h | h | h
  · subst h
    rcases Option.eq_none_or_eq_some d2 with h2 | ⟨x, h2⟩ <;> subst h2
    · exact ⟨none, reconcileDt_same none⟩
    · exact ⟨some x, reconcileDt_none_left (by simp)⟩
  · subst h; exact ⟨d1, reconcileDt_none_right d1⟩
  · subst h; exact ⟨d1, reconcileDt_same d1⟩

theorem reconcileDt_never_shape (d1 d2 : Option ℚ) :
    reconcileDt d1 d2 ≠ .error .shapeMismatch := by
  unfold reconcileDt
  split_ifs <;> simp

/-! ### Success lemmas for the binary operators -/

theorem add_ok (a b : StateSpace) (ha : a.WF) (hb : b.WF)
    (hD : a.D.rows = b.D.rows ∧ a.D.cols = b.D.cols)
    {d : Option ℚ} (hd : reconcileDt a.dt b.dt = .ok d) :
    StateSpace.add a b =
      .ok ⟨a.A.blockDiag b.A, a.B.vconcat b.B, a.C.hconcat b.C, a.D.add b.D, d⟩ := by
  obtain ⟨ha1, ha2, ha3, ha4, ha5⟩ := ha
  obtain ⟨hb1, hb2, hb3, hb4, hb5⟩ := hb
  unfold StateSpace.add
  rw [if_neg (by tauto), hd]
  exact (mkStateSpace_ok_iff _ _ _ _ _ _).mpr
    ⟨⟨by simp; omega, by simp; omega, by simp; omega, by simp [ha4], by simp [ha5]⟩, rfl⟩

theorem mul_ok (a b : StateSpace) (ha : a.WF) (hb : b.WF)
    (hg : a.outputs = b.inputs) (hio : a.inputs = b.outputs)
    {d : Option ℚ} (hd : reconcileDt a.dt b.dt = .ok d) :
    StateSpace.mul a b =
      .ok ⟨a.A.block2 (a.B.mul b.C) b.A,
           ((a.D.mul b.C).hconcat a.C).transpose,
           (b.B.vconcat (a.B.mul b.D)).transpose,
           a.D.mul b.D, d⟩ := by
  obtain ⟨ha1, ha2, ha3, ha4, ha5⟩ := ha
  obtain ⟨hb1, hb2, hb3, hb4, hb5⟩ := hb
  have hg' : a.C.rows = b.B.cols := hg
  have hio' : a.B.cols = b.C.rows := hio
  unfold StateSpace.mul
  rw [if_neg (by simpa [StateSpace.outputs, StateSpace.inputs] using hg'), hd]
  show (if a.B.cols ≠ b.C.rows then _ else _) = _
  rw [if_neg (by simpa using hio')]
  exact (mkStateSpace_ok_iff _ _ _ _ _ _).mpr
    ⟨⟨by simp; omega, by simp; omega, by simp; omega,
      by simp [ha4, hg'], by simp [hb5, ha4, hg']⟩, rfl⟩

instance {ε α : Type} [DecidableEq ε] [DecidableEq α] :
    DecidableEq (Except ε α) := fun a b =>
  match a, b with
  | .ok x, .ok y =>
    if h : x = y then .isTrue (by rw [h]) else .isFalse (by simp [h])
  | .error e, .error f =>
    if h : e = f then .isTrue (by rw [h]) else .isFalse (by simp [h])
  | .ok _, .error _ => .isFalse (by simp)
  | .error _, .ok _ => .isFalse (by simp)

theorem reconcileDt_cases (d1 d2 : Option ℚ) :
    (∃ d, reconcileDt d1 d2 = .ok d) ∨
      reconcileDt d1 d2 = .error .incompatibleSamplingTime := by
  unfold reconcileDt
  split_ifs <;> simp

theorem add_shapeError (a b : StateSpace)
    (hD : ¬(a.D.rows = b.D.rows ∧ a.D.cols = b.D.cols)) :
    StateSpace.add a b = .error .shapeMismatch := by
  unfold StateSpace.add
  rw [if_pos hD]

theorem add_dtError (a b : StateSpace)
    (hD : a.D.rows = b.D.rows ∧ a.D.cols = b.D.cols)
    (h : reconcileDt a.dt b.dt = .error .incompatibleSamplingTime) :
    StateSpace.add a b = .error .incompatibleSamplingTime := by
  unfold StateSpace.add
  rw [if_neg (by tauto), h]
  rfl

theorem mul_guardError (a b : StateSpace) (hg : a.outputs ≠ b.inputs) :
    StateSpace.mul a b = .error .shapeMismatch := by
  unfold StateSpace.mul
  rw [if_pos hg]

theorem mul_dtError (a b : StateSpace) (hg : a.outputs = b.inputs)
    (h : reconcileDt a.dt b.dt = .error .incompatibleSamplingTime) :
    StateSpace.mul a b = .error .incompatibleSamplingTime := by
  unfold StateSpace.mul
  rw [if_neg (by simpa using hg), h]
  rfl

theorem mul_alignError (a b : StateSpace) (hg : a.outputs = b.inputs)
    {d : Option ℚ} (hd : reconcileDt a.dt b.dt = .ok d)
    (hio : a.B.cols ≠ b.C.rows) :
    StateSpace.mul a b = .error .shapeMismatch := by
  unfold StateSpace.mul
  rw [if_neg (by simpa using hg), hd]
  show (if a.B.cols ≠ b.C.rows then _ else _) = _
  rw [if_pos hio]

/-! ### The claims -/

/-- C1: for every quadruple of matrices, construction fails with
`ShapeMismatch` exactly when A is not square, or B does not have as many
rows as A, or C does not have as many columns as A, or D's shape differs
from `(rows C, cols B)`; when all four invariants hold, construction
succeeds and the model stores exactly the four given matrices. -/
theorem construction_shape_invariant (A B C D : Mat) (dt : Option ℚ) :
    (mkStateSpace A B C D dt = .error .shapeMismatch ↔
      ¬(A.rows = A.cols ∧ B.rows = A.rows ∧ C.cols = A.rows ∧
        D.rows = C.rows ∧ D.cols = B.cols)) ∧
    ((A.rows = A.cols ∧ B.rows = A.rows ∧ C.cols = A.rows ∧
      D.rows = C.rows ∧ D.cols = B.cols) →
      mkStateSpace A B C D dt = .ok ⟨A, B, C, D, dt⟩) := by
  constructor
  · unfold mkStateSpace
    split_ifs <;> simp_all
  · intro h
    exact (mkStateSpace_ok_iff _ _ _ _ _ _).mpr ⟨h, rfl⟩

/-- A concrete well-shaped quadruple. -/
def wA : Mat := ⟨2, 2, [[0, 1], [-4, -1/2]]⟩

/-- See `wA`. -/
def wB : Mat := ⟨2, 1, [[0], [1]]⟩

/-- See `wA`. -/
def wC : Mat := ⟨1, 2, [[4, 0]]⟩

/-- See `wA`. -/
def wD : Mat := ⟨1, 1, [[0]]⟩

/-- Witness for C1 at the concrete quadruple `wA, wB, wC, wD`. -/
theorem construction_shape_invariant_witness :
    mkStateSpace wA wB wC wD none = .ok ⟨wA, wB, wC, wD, none⟩ :=
  (construction_shape_invariant wA wB wC wD none).2 (by decide)

/-- C10: model equality compares only the four matrices and ignores the
sampling time: models with element-wise equal A, B, C, D compare equal
whatever their `dt` fields are. -/
theorem eq_ignores_samplingTime (s t : StateSpace) (d d' : Option ℚ)
    (hA : s.A = t.A) (hB : s.B = t.B) (hC : s.C = t.C) (hD : s.D = t.D) :
    StateSpace.eq { s with dt := d } { t with dt := d' } = true := by
  simp [StateSpace.eq, hA, hB, hC, hD]

/-- Witness for C10: equal matrices, one model continuous (`dt = none`),
the other with an explicit sampling time. -/
theorem eq_ignores_samplingTime_witness :
    StateSpace.eq { (⟨wA, wB, wC, wD, none⟩ : StateSpace) with dt := none }
      { (⟨wA, wB, wC, wD, none⟩ : StateSpace) with dt := some (1/100) } = true :=
  eq_ignores_samplingTime ⟨wA, wB, wC, wD, none⟩ ⟨wA, wB, wC, wD, none⟩
    none (some (1/100)) rfl rfl rfl rfl

/-- C4: parallel connection fails with `ShapeMismatch` exactly when the
shapes of the two D matrices differ, and every successful sum is the
block-diagonal A, vertically stacked B, horizontally concatenated C and
entry-wise summed D. -/
theorem add_parallel_connection (a b : StateSpace) (ha : a.WF) (hb : b.WF) :
    (StateSpace.add a b = .error .shapeMismatch ↔
      ¬(a.D.rows = b.D.rows ∧ a.D.cols = b.D.cols)) ∧
    (∀ s, StateSpace.add a b = .ok s →
      s.A = a.A.blockDiag b.A ∧ s.B = a.B.vconcat b.B ∧
      s.C = a.C.hconcat b.C ∧ s.D = a.D.add b.D) := by
  constructor
  · constructor
    · intro h
      by_contra hD
      rcases reconcileDt_cases a.dt b.dt with ⟨d, hok⟩ | herr
      · rw [add_ok a b ha hb hD hok] at h
        exact absurd h (by simp)
      · rw [add_dtError a b hD herr] at h
        exact absurd h (by simp)
    · exact add_shapeError a b
  · intro s h
    by_cases hD : a.D.rows = b.D.rows ∧ a.D.cols = b.D.cols
    · rcases reconcileDt_cases a.dt b.dt with ⟨d, hok⟩ | herr
      · rw [add_ok a b ha hb hD hok] at h
        obtain rfl : s = _ := (Except.ok.injEq _ _).mp h.symm
        exact ⟨rfl, rfl, rfl, rfl⟩
      · rw [add_dtError a b hD herr] at h
        exact absurd h (by simp)
    · rw [add_shapeError a b hD] at h
      exact absurd h (by simp)

/-- A one-state SISO model with a chosen sampling time, used as a witness
input. -/
def siso1 (dt : Option ℚ) : StateSpace :=
  ⟨⟨1, 1, [[0]]⟩, ⟨1, 1, [[1]]⟩, ⟨1, 1, [[1]]⟩, ⟨1, 1, [[0]]⟩, dt⟩

/-- Witness for C4 at two concrete one-state models. -/
theorem add_parallel_connection_witness :
    (StateSpace.add (siso1 none) (siso1 none) = .error .shapeMismatch ↔
      ¬((siso1 none).D.rows = (siso1 none).D.rows ∧
        (siso1 none).D.cols = (siso1 none).D.cols)) ∧
    (∀ s, StateSpace.add (siso1 none) (siso1 none) = .ok s →
      s.A = (siso1 none).A.blockDiag (siso1 none).A ∧
      s.B = (siso1 none).B.vconcat (siso1 none).B ∧
      s.C = (siso1 none).C.hconcat (siso1 none).C ∧
      s.D = (siso1 none).D.add (siso1 none).D) :=
  add_parallel_connection (siso1 none) (siso1 none) (by decide) (by decide)

/-- C5: sampling-time reconciliation in `+` and `*`.  For shape-compatible
operands: an unset sampling time defers to the other operand, equal
sampling times are kept, and two distinct explicit sampling times make
either operation fail with `IncompatibleSamplingTime`. -/
theorem samplingTime_reconciliation (a b : StateSpace) (ha : a.WF) (hb : b.WF)
    (hD : a.D.rows = b.D.rows ∧ a.D.cols = b.D.cols)
    (hg : a.outputs = b.inputs) (hio : a.inputs = b.outputs) :
    (a.dt = none → b.dt ≠ none →
      (∃ s, StateSpace.add a b = .ok s ∧ s.dt = b.dt) ∧
      (∃ s, StateSpace.mul a b = .ok s ∧ s.dt = b.dt)) ∧
    (a.dt ≠ none → b.dt = none →
      (∃ s, StateSpace.add a b = .ok s ∧ s.dt = a.dt) ∧
      (∃ s, StateSpace.mul a b = .ok s ∧ s.dt = a.dt)) ∧
    (a.dt ≠ none → a.dt = b.dt →
      (∃ s, StateSpace.add a b = .ok s ∧ s.dt = a.dt) ∧
      (∃ s, StateSpace.mul a b = .ok s ∧ s.dt = a.dt)) ∧
    (a.dt ≠ none → b.dt ≠ none → a.dt ≠ b.dt →
      StateSpace.add a b = .error .incompatibleSamplingTime ∧
      StateSpace.mul a b = .error .incompatibleSamplingTime) := by
  refine ⟨?_, ?_, ?_, ?_⟩
  · intro h1 h2
    have hok : reconcileDt a.dt b.dt = .ok b.dt := by rw [h1]; exact reconcileDt_none_left h2
    exact ⟨⟨_, add_ok a b ha hb hD hok, rfl⟩, ⟨_, mul_ok a b ha hb hg hio hok, rfl⟩⟩
  · intro h1 h2
    have hok : reconcileDt a.dt b.dt = .ok a.dt := by rw [h2]; exact reconcileDt_none_right a.dt
    exact ⟨⟨_, add_ok a b ha hb hD hok, rfl⟩, ⟨_, mul_ok a b ha hb hg hio hok, rfl⟩⟩
  · intro h1 h2
    have hok : reconcileDt a.dt b.dt = .ok a.dt := by rw [← h2]; exact reconcileDt_same a.dt
    exact ⟨⟨_, add_ok a b ha hb hD hok, rfl⟩, ⟨_, mul_ok a b ha hb hg hio hok, rfl⟩⟩
  · intro h1 h2 h3
    rcases Option.ne_none_iff_exists.mp h1 with ⟨x, hx⟩
    rcases Option.ne_none_iff_exists.mp h2 with ⟨y, hy⟩
    have hxy : x ≠ y := by
      intro hc
      exact h3 (by rw [← hx, ← hy, hc])
    have herr : reconcileDt a.dt b.dt = .error .incompatibleSamplingTime := by
      rw [← hx, ← hy]
      exact reconcileDt_diff hxy
    exact ⟨add_dtError a b hD herr, mul_dtError a b hg herr⟩

/-- Witness for C5: a continuous one-state model combined with a discrete
one carries the discrete operand's sampling time through `+` and `*`. -/
theorem samplingTime_reconciliation_witness :
    (∃ s, StateSpace.add (siso1 none) (siso1 (some (1/20))) = .ok s ∧
      s.dt = (siso1 (some (1/20))).dt) ∧
    (∃ s, StateSpace.mul (siso1 none) (siso1 (some (1/20))) = .ok s ∧
      s.dt = (siso1 (some (1/20))).dt) :=
  (samplingTime_reconciliation (siso1 none) (siso1 (some (1/20)))
    (by decide) (by decide) (by decide) (by decide) (by decide)).1 rfl (by decide)

/-- C2, amended.  For construction invariants and compatible sampling
times, series composition `self * other` raises the shape `ValueError`
exactly when `self.outputs ≠ other.inputs` (the guard the code actually
checks) or `self.inputs ≠ other.outputs` (numpy's shapes-not-aligned error
in the block products); a successful product has the claimed
block-coupled A and `D = self.D * other.D`, but its stored B is the
transpose of the computed `C = [self.D*other.C, self.C]` and its stored C
is the transpose of the computed `B = [other.B; self.B*other.D]`, because
the source constructs `StateSpace(A, C.T, B.T, D)`. -/
theorem mul_series_amended (a b : StateSpace) (ha : a.WF) (hb : b.WF)
    (hdt : a.dt = none ∨ b.dt = none ∨ a.dt = b.dt) :
    (StateSpace.mul a b = .error .shapeMismatch ↔
      (a.outputs ≠ b.inputs ∨ a.inputs ≠ b.outputs)) ∧
    (∀ s, StateSpace.mul a b = .ok s →
      s.A = a.A.block2 (a.B.mul b.C) b.A ∧
      s.B = ((a.D.mul b.C).hconcat a.C).transpose ∧
      s.C = (b.B.vconcat (a.B.mul b.D)).transpose ∧
      s.D = a.D.mul b.D) := by
  obtain ⟨d, hok⟩ := reconcileDt_isOk a.dt b.dt hdt
  constructor
  · constructor
    · intro h
      by_contra hc
      push_neg at hc
      rw [mul_ok a b ha hb hc.1 hc.2 hok] at h
      exact absurd h (by simp)
    · intro h
      by_cases hg : a.outputs = b.inputs
      · rcases h with h | h
        · exact absurd hg h
        · exact mul_alignError a b hg hok h
      · exact mul_guardError a b hg
  · intro s h
    by_cases hg : a.outputs = b.inputs
    · by_cases hio : a.inputs = b.outputs
      · rw [mul_ok a b ha hb hg hio hok] at h
        obtain rfl : s = _ := (Except.ok.injEq _ _).mp h.symm
        exact ⟨rfl, rfl, rfl, rfl⟩
      · rw [mul_alignError a b hg hok hio] at h
        exact absurd h (by simp)
    · rw [mul_guardError a b hg] at h
      exact absurd h (by simp)

/-- A model with one state, one input and two outputs. -/
def cexSelf : StateSpace :=
  ⟨⟨1, 1, [[0]]⟩, ⟨1, 1, [[1]]⟩, ⟨2, 1, [[1], [1]]⟩, ⟨2, 1, [[0], [0]]⟩, none⟩

/-- Counterexample to C2 as stated: here `self.inputs = other.outputs`, so
the claim demands a successful series composition, but the code's guard
compares `self.outputs` with `other.inputs` and raises the shape
`ValueError`. -/
theorem mul_series_counterexample :
    cexSelf.inputs = (siso1 none).outputs ∧
    StateSpace.mul cexSelf (siso1 none) = .error .shapeMismatch := by decide

/-- Witness for the amended C2 at two concrete one-state models. -/
theorem mul_series_amended_witness :
    StateSpace.mul (siso1 none) (siso1 none) = .error .shapeMismatch ↔
      ((siso1 none).outputs ≠ (siso1 none).inputs ∨
        (siso1 none).inputs ≠ (siso1 none).outputs) :=
  (mul_series_amended (siso1 none) (siso1 none) (by decide) (by decide) (Or.inl rfl)).1

/-! ### Feedback: C3 and C9 -/

theorem feedback_eq_singular (self k : StateSpace) (sign : ℚ)
    (hguard : k.D.cols = self.D.rows ∧ k.D.rows = self.inputs)
    (hF : (feedbackF self k sign).inv = none) :
    StateSpace.feedback self k sign = .error .singularFeedbackLoop := by
  unfold StateSpace.feedback
  rw [if_neg (not_not_intro hguard), hF]

theorem feedback_eq_assemble (self k : StateSpace) (sign : ℚ)
    (hguard : k.D.cols = self.D.rows ∧ k.D.rows = self.inputs)
    {Fi : Mat} (hF : (feedbackF self k sign).inv = some Fi) :
    StateSpace.feedback self k sign = feedbackAssemble self k sign Fi := by
  unfold StateSpace.feedback
  rw [if_neg (not_not_intro hguard), hF]

theorem feedbackAssemble_ok (self k : StateSpace) (sign : ℚ) (Fi : Mat)
    (hself : self.WF) (hk : k.WF) :
    ∃ s, feedbackAssemble self k sign Fi = .ok s ∧ s.dt = none ∧
      s.A.rows = self.A.rows + k.A.rows ∧ s.A.cols = self.A.rows + k.A.rows := by
  obtain ⟨hs1, hs2, hs3, hs4, hs5⟩ := hself
  obtain ⟨hk1, hk2, hk3, hk4, hk5⟩ := hk
  unfold feedbackAssemble
  refine ⟨_, (mkStateSpace_ok_iff _ _ _ _ _ _).mpr ⟨⟨?_, ?_, ?_, ?_, ?_⟩, rfl⟩, rfl, ?_, ?_⟩
  · simp; omega
  · simp; omega
  · simp; omega
  · simp [hs4]
  · simp [hs5]
  · simp [hk2]
  · simp; omega

/-- C3: for shape-compatible `self`, compensator `k` and `sign ∈ {+1,−1}`,
`feedback` computes `F = I − sign·(k.D·self.D)`, fails with
`SingularFeedbackLoop` exactly when `F` is singular, and otherwise returns
a model of state order `n_self + n_k`. -/
theorem feedback_singular_iff (self k : StateSpace) (sign : ℚ)
    (hself : self.WF) (hk : k.WF)
    (h1 : k.inputs = self.outputs) (h2 : k.outputs = self.inputs)
    (_hsign : sign = 1 ∨ sign = -1) :
    (StateSpace.feedback self k sign = .error .singularFeedbackLoop ↔
      ((Mat.eye self.inputs).sub ((k.D.mul self.D).scale sign)).det = 0) ∧
    (∀ s, StateSpace.feedback self k sign = .ok s →
      s.A.rows = self.A.rows + k.A.rows ∧ s.A.cols = self.A.rows + k.A.rows) := by
  have hguard : k.D.cols = self.D.rows ∧ k.D.rows = self.inputs := by
    obtain ⟨_, _, _, hs4, hs5⟩ := hself
    obtain ⟨_, _, _, hk4, hk5⟩ := hk
    have e1 : k.B.cols = self.C.rows := h1
    have e2 : k.C.rows = self.B.cols := h2
    have e3 : self.D.rows = self.C.rows := hs4
    have e4 : self.inputs = self.B.cols := rfl
    constructor <;> omega
  constructor
  · constructor
    · intro h
      by_contra hdet
      rcases hF : (feedbackF self k sign).inv with _ | Fi
      · exact hdet ((Mat.inv_eq_none_iff _).mp hF)
      · rw [feedback_eq_assemble self k sign hguard hF] at h
        obtain ⟨s, hsok, _⟩ := feedbackAssemble_ok self k sign Fi hself hk
        rw [hsok] at h
        exact absurd h (by simp)
    · intro hdet
      exact feedback_eq_singular self k sign hguard ((Mat.inv_eq_none_iff _).mpr hdet)
  · intro s h
    rcases hF : (feedbackF self k sign).inv with _ | Fi
    · rw [feedback_eq_singular self k sign hguard hF] at h
      exact absurd h (by simp)
    · rw [feedback_eq_assemble self k sign hguard hF] at h
      obtain ⟨t, htok, _, hr, hc⟩ := feedbackAssemble_ok self k sign Fi hself hk
      rw [htok] at h
      obtain rfl : t = s := (Except.ok.injEq _ _).mp h
      exact ⟨hr, hc⟩

/-- A one-state model whose feedthrough is a unit gain, used as a concrete
compensator. -/
def kGain : StateSpace :=
  ⟨⟨1, 1, [[0]]⟩, ⟨1, 1, [[1]]⟩, ⟨1, 1, [[0]]⟩, ⟨1, 1, [[1]]⟩, none⟩

/-- Witness for C3 at a concrete plant/compensator pair (negative
feedback): the loop matrix is nonsingular and the composition succeeds. -/
theorem feedback_singular_iff_witness :
    StateSpace.feedback (siso1 none) kGain (-1) = .error .singularFeedbackLoop ↔
      ((Mat.eye (siso1 none).inputs).sub
        ((kGain.D.mul (siso1 none).D).scale (-1))).det = 0 :=
  (feedback_singular_iff (siso1 none) kGain (-1) (by decide) (by decide)
    (by decide) (by decide) (Or.inr rfl)).1

/-- C9: every model returned by `feedback` carries no sampling time,
whatever the sampling times of `self` and `k` were: the source returns
`StateSpace(A, B, C, D)` without passing `dt`, so the constructor's
default `dt=None` is stored. -/
theorem feedback_samplingTime_none (self k : StateSpace) (sign : ℚ)
    (s : StateSpace) (h : StateSpace.feedback self k sign = .ok s) :
    s.dt = none := by
  unfold StateSpace.feedback at h
  by_cases hg : ¬(k.D.cols = self.D.rows ∧ k.D.rows = self.inputs)
  · rw [if_pos hg] at h
    exact absurd h (by simp)
  · rw [if_neg hg] at h
    rcases hF : (feedbackF self k sign).inv with _ | Fi
    · rw [hF] at h
      exact absurd h (by simp)
    · rw [hF] at h
      unfold feedbackAssemble at h
      rcases (mkStateSpace_ok_iff _ _ _ _ _ _).mp h with ⟨_, rfl⟩
      rfl

/-- The concrete model `feedback` returns for the plant `siso1 (some 1)`
(a *discrete* one-state integrator) and the compensator `kGain` with
negative feedback; its `dt` field is `none` even though the plant's was
set. -/
def fbResult : StateSpace :=
  ⟨⟨2, 2, [[-1, 0], [1, 0]]⟩, ⟨2, 1, [[1], [0]]⟩, ⟨1, 2, [[1, 0]]⟩,
    ⟨1, 1, [[0]]⟩, none⟩

/-- Witness for C9: a concrete feedback composition where `self` has an
explicit sampling time, whose result stores `dt = none`. -/
theorem feedback_samplingTime_none_witness : fbResult.dt = none :=
  feedback_samplingTime_none (siso1 (some 1)) kGain (-1) fbResult (by
    norm_num [StateSpace.feedback, feedbackF, feedbackAssemble, siso1, kGain,
      fbResult, StateSpace.inputs, mkStateSpace, Mat.inv, Mat.det, detN,
      minorFn, Mat.eye, Mat.sub, Mat.scale, Mat.mul, Mat.add, Mat.vconcat,
      Mat.hconcat, Mat.ofFn, Mat.entry, List.range_succ])

/-! ### Scalar right operands: C8 -/

/-- C8 fails on the code: for every model and every plain scalar right
operand, `self * g` raises `TypeError` inside `_convert_to_ss` — the call
`np.zeros(outputs, 1)` passes the integer `1` as numpy's `dtype` — so no
gain model is ever built and the series algebra is never reached. -/
theorem mulScalar_always_typeError (self : StateSpace) (g : ℚ) :
    StateSpace.mulScalar self g = .error .typeErr := rfl

/-! ### Pole placement: C7 -/

theorem tcf_notControllable (s : StateSpace)
    (h : s.controllability.det = 0) :
    s.to_controllable_form = .error .notControllable := by
  unfold StateSpace.to_controllable_form
  rw [(Mat.inv_eq_none_iff _).mpr h]

/-- The length of `np.poly(roots)` is `len(roots) + 1`. -/
theorem polyFromRoots_length (roots : List ℚ) :
    (polyFromRoots roots).length = roots.length + 1 := by
  unfold polyFromRoots
  suffices h : ∀ (l : List ℚ) (acc : List ℚ),
      (l.foldl (fun acc r =>
        List.zipWith (· - ·) (acc ++ [0]) ((0 :: acc).map (r * ·))) acc).length =
      acc.length + l.length by
    simpa [Nat.add_comm] using h roots [1]
  intro l
  induction l with
  | nil => intro acc; simp
  | cons x xs ih =>
    intro acc
    rw [List.foldl_cons, ih]
    simp
    omega

theorem place_unfold_ok (s : StateSpace) (poles : List ℚ) (T : Mat)
    (hT : s.to_controllable_form = .ok T) :
    StateSpace.place s poles =
      match T.inv with
      | none => .error .notControllable
      | some Ti =>
        if ((polyFromRoots poles).drop 1).length = s.A.rows ∨
            ((polyFromRoots poles).drop 1).length = 1
        then .ok ((companionGain s poles T Ti).mul Ti)
        else .error .dimension := by
  unfold StateSpace.place
  rw [hT]

/-- C7, amended, for single-input systems.  `place` fails with
`NotControllable` whenever the controllability matrix is singular (the
system is not controllable); once the canonical transform and its inverse
exist, it fails with the broadcast dimension error whenever the pole list
length is neither `n` nor `1` — a single pole is silently broadcast by
numpy across the whole coefficient row instead of raising — and every
returned gain is `K_companion * T⁻¹`. -/
theorem place_amended (s : StateSpace) (poles : List ℚ)
    (_hsi : s.B.cols = 1) :
    (s.controllability.det = 0 →
      StateSpace.place s poles = .error .notControllable) ∧
    (∀ T Ti, s.to_controllable_form = .ok T → T.inv = some Ti →
      poles.length ≠ s.A.rows → poles.length ≠ 1 →
      StateSpace.place s poles = .error .dimension) ∧
    (∀ K, StateSpace.place s poles = .ok K →
      ∃ T Ti, s.to_controllable_form = .ok T ∧ T.inv = some Ti ∧
        (poles.length = s.A.rows ∨ poles.length = 1) ∧
        K = (companionGain s poles T Ti).mul Ti) := by
  have hlen : ((polyFromRoots poles).drop 1).length = poles.length := by
    rw [List.length_drop, polyFromRoots_length]
    omega
  refine ⟨?_, ?_, ?_⟩
  · intro h
    unfold StateSpace.place
    rw [tcf_notControllable s h]
  · intro T Ti hT hTi hn h1
    rw [place_unfold_ok s poles T hT, hTi]
    show (if ((polyFromRoots poles).drop 1).length = s.A.rows ∨
        ((polyFromRoots poles).drop 1).length = 1
      then Except.ok ((companionGain s poles T Ti).mul Ti)
      else Except.error Err.dimension) = Except.error Err.dimension
    rw [if_neg (by rw [hlen]; tauto)]
  · intro K h
    rcases hT : s.to_controllable_form with e | T
    · unfold StateSpace.place at h
      rw [hT] at h
      exact absurd h (by simp)
    · rw [place_unfold_ok s poles T hT] at h
      rcases hTi : T.inv with _ | Ti
      · rw [hTi] at h
        exact absurd h (by simp)
      · rw [hTi] at h
        replace h : (if ((polyFromRoots poles).drop 1).length = s.A.rows ∨
              ((polyFromRoots poles).drop 1).length = 1
            then Except.ok ((companionGain s poles T Ti).mul Ti)
            else Except.error Err.dimension) = Except.ok K := h
        by_cases hc : ((polyFromRoots poles).drop 1).length = s.A.rows ∨
            ((polyFromRoots poles).drop 1).length = 1
        · rw [if_pos hc] at h
          obtain rfl : _ = K := (Except.ok.injEq _ _).mp h
          rw [hlen] at hc
          exact ⟨T, Ti, rfl, hTi, hc, rfl⟩
        · rw [if_neg hc] at h
          exact absurd h (by simp)

/-- An uncontrollable single-input system (`A = 0`, so the controllability
matrix `[B, 0]` is singular). -/
def exU : StateSpace :=
  ⟨⟨2, 2, [[0, 0], [0, 0]]⟩, ⟨2, 1, [[1], [0]]⟩, ⟨1, 2, [[1, 0]]⟩,
    ⟨1, 1, [[0]]⟩, none⟩

/-- Witness for the amended C7: pole placement on the uncontrollable
system `exU` fails with `NotControllable`. -/
theorem place_amended_witness :
    StateSpace.place exU [] = .error .notControllable :=
  (place_amended exU [] rfl).1 (by
    norm_num [exU, StateSpace.controllability, Mat.pow, Mat.mul, Mat.hconcat,
      Mat.eye, Mat.ofFn, Mat.entry, Mat.det, detN, minorFn, List.range_succ])

/-- The double integrator: a controllable two-state single-input system. -/
def exC : StateSpace :=
  ⟨⟨2, 2, [[0, 1], [0, 0]]⟩, ⟨2, 1, [[0], [1]]⟩, ⟨1, 2, [[1, 0]]⟩,
    ⟨1, 1, [[0]]⟩, none⟩

/-- Counterexample to C7 as stated: `exC` has `n = 2` states, the pole
list `[-1]` has length `1 ≠ n`, yet `place` succeeds — numpy broadcasts
the single coefficient over the companion row instead of raising the
promised dimension error. -/
theorem place_counterexample :
    exC.A.rows = 2 ∧ StateSpace.place exC [-1] = .ok ⟨1, 2, [[1, 1]]⟩ := by
  refine ⟨rfl, ?_⟩
  norm_num [exC, StateSpace.place, StateSpace.to_controllable_form,
    StateSpace.controllability, companionGain, polyFromRoots, Mat.pow,
    Mat.mul, Mat.hconcat, Mat.eye, Mat.inv, Mat.det, detN, minorFn,
    Mat.ofFn, Mat.entry, List.range_succ]

/-! ### A verified rational linear-equation solver, modelling `sym.solve`

`lyapunov` hands `sympy` a list of affine equations over the distinct
entries of the symmetric matrix `P`.  `sym.solve` returns an empty result
when the system is inconsistent (the source then returns `None`), a
complete assignment when the solution is unique, and a partial/parametric
one when the system is underdetermined — in which case the surviving
symbols make the subsequent `np.asarray(..., dtype=float)` raise
`TypeError`.  Gaussian elimination reproduces this trichotomy. -/

/-- Dot product of a coefficient list with a value list (truncating at the
shorter list). -/
def dotL : List ℚ → List ℚ → ℚ
  | a :: as, x :: xs => a * x + dotL as xs
  | _, _ => 0

/-- An affine equation `Σ coeffs[i] * x[i] + const = 0`. -/
structure LinEq where
  coeffs : List ℚ
  const : ℚ
deriving DecidableEq

/-- The value of an equation's left-hand side at an assignment. -/
def LinEq.eval (xs : List ℚ) (e : LinEq) : ℚ := dotL e.coeffs xs + e.const

/-- An assignment satisfying every equation of a system. -/
def SatAll (xs : List ℚ) (eqs : List LinEq) : Prop :=
  ∀ e ∈ eqs, LinEq.eval xs e = 0

/-- Outcome of the linear solve, mirroring what `lyapunov` observes of
`sym.solve`: an empty result, a complete assignment, or a parametric
solution with free symbols remaining. -/
inductive SolveRes where
  | inconsistent
  | unique (xs : List ℚ)
  | underdetermined
deriving DecidableEq

/-- Leading coefficient. -/
def headC (e : LinEq) : ℚ := e.coeffs.headD 0

/-- Drop the (zero) leading coefficient. -/
def tailEq (e : LinEq) : LinEq := ⟨e.coeffs.tail, e.const⟩

/-- Subtract the multiple of pivot equation `e` that eliminates the first
variable from `f`, and drop the now-zero leading coefficient. -/
def elimEq (e f : LinEq) : LinEq :=
  ⟨(List.zipWith (· - ·) f.coeffs (e.coeffs.map ((headC f / headC e) * ·))).tail,
   f.const - (headC f / headC e) * e.const⟩

/-- Find an equation whose leading coefficient is nonzero. -/
def pickPivot : List LinEq → Option (LinEq × List LinEq)
  | [] => none
  | e :: rest =>
    if headC e ≠ 0 then some (e, rest)
    else
      match pickPivot rest with
      | none => none
      | some (p, others) => some (p, e :: others)

/-- Gaussian elimination over the first `k` variables. -/
def solveLin : Nat → List LinEq → SolveRes
  | 0, eqs => if eqs.all fun e => decide (e.const = 0) then .unique [] else .inconsistent
  | k + 1, eqs =>
    match pickPivot eqs with
    | none =>
      -- the first variable occurs in no equation: it is a free symbol
      match solveLin k (eqs.map tailEq) with
      | .inconsistent => .inconsistent
      | _ => .underdetermined
    | some (e, rest) =>
      match solveLin k (rest.map (elimEq e)) with
      | .inconsistent => .inconsistent
      | .underdetermined => .underdetermined
      | .unique xs => .unique ((-e.const - dotL e.coeffs.tail xs) / headC e :: xs)

theorem dotL_nil_right (l : List ℚ) : dotL l [] = 0 := by
  cases l <;> rfl

theorem dotL_cons (a : ℚ) (as : List ℚ) (x : ℚ) (xs : List ℚ) :
    dotL (a :: as) (x :: xs) = a * x + dotL as xs := rfl

theorem dotL_zipWith_sub (a b xs : List ℚ) (h : a.length = b.length) :
    dotL (List.zipWith (· - ·) a b) xs = dotL a xs - dotL b xs := by
  induction a generalizing b xs with
  | nil =>
    obtain rfl : b = [] := List.length_eq_zero.mp (by simpa using h.symm)
    simp [dotL]
  | cons a0 as ih =>
    cases b with
    | nil => simp at h
    | cons b0 bs =>
      cases xs with
      | nil => simp [dotL_nil_right]
      | cons x xs' =>
        simp only [List.zipWith_cons_cons, dotL_cons, ih bs xs' (by simpa using h)]
        ring

theorem dotL_map_mul (r : ℚ) (l xs : List ℚ) :
    dotL (l.map (r * ·)) xs = r * dotL l xs := by
  induction l generalizing xs with
  | nil => simp [dotL]
  | cons a as ih =>
    cases xs with
    | nil => simp [dotL_nil_right]
    | cons x xs' =>
      simp only [List.map_cons, dotL_cons, ih xs']
      ring

/-- The central elimination identity. -/
theorem elimEq_eval (e f : LinEq) (he : headC e ≠ 0)
    (hlen : f.coeffs.length = e.coeffs.length) (hne : e.coeffs ≠ [])
    (x0 : ℚ) (xs : List ℚ) :
    LinEq.eval xs (elimEq e f) =
      LinEq.eval (x0 :: xs) f - (headC f / headC e) * LinEq.eval (x0 :: xs) e := by
  obtain ⟨ec, econ⟩ := e
  obtain ⟨fc, fcon⟩ := f
  cases ec with
  | nil => exact absurd rfl hne
  | cons e0 et =>
    cases fc with
    | nil => simp at hlen
    | cons f0 ft =>
      show dotL (List.zipWith (· - ·) (f0 :: ft)
          ((e0 :: et).map ((headC ⟨f0 :: ft, fcon⟩ / headC ⟨e0 :: et, econ⟩) * ·))).tail xs +
          (fcon - (headC ⟨f0 :: ft, fcon⟩ / headC ⟨e0 :: et, econ⟩) * econ) = _
      have hh : headC ⟨e0 :: et, econ⟩ = e0 := rfl
      have hf : headC ⟨f0 :: ft, fcon⟩ = f0 := rfl
      rw [hh, hf] at *
      simp only [List.map_cons, List.zipWith_cons_cons, List.tail_cons]
      rw [dotL_zipWith_sub ft (et.map ((f0 / e0) * ·)) xs (by simpa using hlen),
        dotL_map_mul]
      show _ = (dotL (f0 :: ft) (x0 :: xs) + fcon) - f0 / e0 * (dotL (e0 :: et) (x0 :: xs) + econ)
      rw [dotL_cons, dotL_cons]
      have he0 : e0 ≠ 0 := by simpa [headC] using he
      field_simp
      ring

/-- Solving the pivot equation for the first variable. -/
theorem pivot_eval (e : LinEq) (he : headC e ≠ 0) (xs : List ℚ) :
    LinEq.eval ((-e.const - dotL e.coeffs.tail xs) / headC e :: xs) e = 0 := by
  obtain ⟨ec, econ⟩ := e
  cases ec with
  | nil => simp [headC] at he
  | cons e0 et =>
    have he0 : e0 ≠ 0 := by simpa [headC] using he
    show dotL (e0 :: et) _ + econ = 0
    rw [dotL_cons]
    show e0 * ((-econ - dotL (e0 :: et).tail xs) / e0) + dotL et xs + econ = 0
    rw [List.tail_cons, mul_div_cancel₀ _ he0]
    ring

theorem pickPivot_none : ∀ {eqs : List LinEq}, pickPivot eqs = none →
    ∀ e ∈ eqs, headC e = 0 := by
  intro eqs
  induction eqs with
  | nil => intro _ e he; simp at he
  | cons a rest ih =>
    intro h e he
    unfold pickPivot at h
    split_ifs at h with ha
    rcases hrec : pickPivot rest with _ | ⟨p, others⟩
    · rcases List.mem_cons.mp he with rfl | hmem
      · exact not_not.mp ha
      · exact ih hrec e hmem
    · rw [hrec] at h
      simp at h

theorem pickPivot_some : ∀ {eqs : List LinEq} {e : LinEq} {rest : List LinEq},
    pickPivot eqs = some (e, rest) → headC e ≠ 0 ∧ eqs.Perm (e :: rest) := by
  intro eqs
  induction eqs with
  | nil => intro e rest h; simp [pickPivot] at h
  | cons a tl ih =>
    intro e rest h
    unfold pickPivot at h
    split_ifs at h with ha
    · obtain ⟨rfl, rfl⟩ : a = e ∧ tl = rest := by simpa using h
      exact ⟨ha, List.Perm.refl _⟩
    · rcases hrec : pickPivot tl with _ | ⟨p, others⟩
      · rw [hrec] at h
        simp at h
      · rw [hrec] at h
        obtain ⟨rfl, rfl⟩ : p = e ∧ a :: others = rest := by simpa using h
        obtain ⟨hp, hperm⟩ := ih hrec
        exact ⟨hp, (hperm.cons a).trans (List.Perm.swap _ a others)⟩

theorem elim_len {e f : LinEq} {k : Nat} (he : e.coeffs.length = k + 1)
    (hf : f.coeffs.length = k + 1) : (elimEq e f).coeffs.length = k := by
  unfold elimEq
  simp [List.length_tail, List.length_zipWith, he, hf]

theorem SatAll_perm {xs : List ℚ} {l1 l2 : List LinEq} (hp : l1.Perm l2)
    (h : SatAll xs l2) : SatAll xs l1 := fun e he => h e (hp.mem_iff.mp he)

/-- An assignment satisfying the eliminated system, extended with the
pivot equation's solution for the first variable, satisfies the original
pivot row and every remaining row. -/
theorem sat_of_elim (k : Nat) (e : LinEq) (rest : List LinEq)
    (he : headC e ≠ 0) (helen : e.coeffs.length = k + 1)
    (hrestlen : ∀ f ∈ rest, f.coeffs.length = k + 1)
    (ys : List ℚ) (hsat : SatAll ys (rest.map (elimEq e))) :
    SatAll ((-e.const - dotL e.coeffs.tail ys) / headC e :: ys) (e :: rest) := by
  intro f hf
  have hx0 := pivot_eval e he ys
  rcases List.mem_cons.mp hf with rfl | hfr
  · exact hx0
  · have h1 := hsat (elimEq _ f) (List.mem_map_of_mem _ hfr)
    have hid := elimEq_eval e f he ((hrestlen f hfr).trans helen.symm)
      (by intro hc; rw [hc] at helen; simp at helen)
      ((-e.const - dotL e.coeffs.tail ys) / headC e) ys
    rw [h1, hx0, mul_zero, sub_zero] at hid
    exact hid.symm

/-- Soundness of the solver: a `unique` result is a complete satisfying
assignment. -/
theorem solveLin_unique_sat : ∀ (k : Nat) (eqs : List LinEq),
    (∀ e ∈ eqs, e.coeffs.length = k) →
    ∀ xs, solveLin k eqs = .unique xs → xs.length = k ∧ SatAll xs eqs := by
  intro k
  induction k with
  | zero =>
    intro eqs hlen xs h
    unfold solveLin at h
    split_ifs at h with hall
    obtain rfl : [] = xs := by simpa using h
    refine ⟨rfl, fun e he => ?_⟩
    have hc : e.const = 0 := of_decide_eq_true (List.all_eq_true.mp hall e he)
    have hcf : e.coeffs = [] := List.length_eq_zero.mp (hlen e he)
    simp [LinEq.eval, hcf, dotL, hc]
  | succ k ih =>
    intro eqs hlen xs h
    unfold solveLin at h
    rcases hp : pickPivot eqs with _ | ⟨e, rest⟩ <;> rw [hp] at h
    · replace h : (match solveLin k (eqs.map tailEq) with
          | SolveRes.inconsistent => SolveRes.inconsistent
          | _ => SolveRes.underdetermined) = SolveRes.unique xs := h
      rcases hrec : solveLin k (eqs.map tailEq) with _ | ys | _ <;>
        rw [hrec] at h <;> simp at h
    · replace h : (match solveLin k (rest.map (elimEq e)) with
          | SolveRes.inconsistent => SolveRes.inconsistent
          | SolveRes.underdetermined => SolveRes.underdetermined
          | SolveRes.unique ys =>
            SolveRes.unique ((-e.const - dotL e.coeffs.tail ys) / headC e :: ys)) =
          SolveRes.unique xs := h
      obtain ⟨hne, hperm⟩ := pickPivot_some hp
      have helen : e.coeffs.length = k + 1 :=
        hlen e (hperm.mem_iff.mpr (List.mem_cons_self e rest))
      have hrestlen : ∀ f ∈ rest, f.coeffs.length = k + 1 := fun f hf =>
        hlen f (hperm.mem_iff.mpr (List.mem_cons_of_mem e hf))
      have hmaplen : ∀ g ∈ rest.map (elimEq e), g.coeffs.length = k := by
        intro g hg
        obtain ⟨f, hf, rfl⟩ := List.mem_map.mp hg
        exact elim_len helen (hrestlen f hf)
      rcases hrec : solveLin k (rest.map (elimEq e)) with _ | ys | _ <;> rw [hrec] at h
      · simp at h
      · obtain rfl : (-e.const - dotL e.coeffs.tail ys) / headC e :: ys = xs := by
          simpa using h
        obtain ⟨hyl, hsat⟩ := ih _ hmaplen ys hrec
        exact ⟨by simp [hyl],
          SatAll_perm hperm (sat_of_elim k e rest hne helen hrestlen ys hsat)⟩
      · simp at h

/-- Whenever the solver does not report inconsistency, the system has a
satisfying assignment. -/
theorem solveLin_consistent_sat : ∀ (k : Nat) (eqs : List LinEq),
    (∀ e ∈ eqs, e.coeffs.length = k) →
    solveLin k eqs ≠ .inconsistent → ∃ xs, xs.length = k ∧ SatAll xs eqs := by
  intro k
  induction k with
  | zero =>
    intro eqs hlen h
    unfold solveLin at h
    split_ifs at h with hall
    · refine ⟨[], rfl, fun e he => ?_⟩
      have hc : e.const = 0 := of_decide_eq_true (List.all_eq_true.mp hall e he)
      have hcf : e.coeffs = [] := List.length_eq_zero.mp (hlen e he)
      simp [LinEq.eval, hcf, dotL, hc]
    · exact absurd rfl h
  | succ k ih =>
    intro eqs hlen h
    unfold solveLin at h
    rcases hp : pickPivot eqs with _ | ⟨e, rest⟩ <;> rw [hp] at h
    · replace h : (match solveLin k (eqs.map tailEq) with
          | SolveRes.inconsistent => SolveRes.inconsistent
          | _ => SolveRes.underdetermined) ≠ SolveRes.inconsistent := h
      have hz := pickPivot_none hp
      have htlen : ∀ g ∈ eqs.map tailEq, g.coeffs.length = k := by
        intro g hg
        obtain ⟨f, hf, rfl⟩ := List.mem_map.mp hg
        simp [tailEq, List.length_tail, hlen f hf]
      have hrecne : solveLin k (eqs.map tailEq) ≠ .inconsistent := by
        intro hc
        rw [hc] at h
        exact h rfl
      obtain ⟨ys, hyl, hsat⟩ := ih _ htlen hrecne
      refine ⟨0 :: ys, by simp [hyl], fun f hf => ?_⟩
      have hflen : f.coeffs.length = k + 1 := hlen f hf
      obtain ⟨c0, ct, hct⟩ : ∃ c0 ct, f.coeffs = c0 :: ct := by
        cases hcf : f.coeffs with
        | nil => rw [hcf] at hflen; simp at hflen
        | cons c0 ct => exact ⟨c0, ct, rfl⟩
      have hc0 : c0 = 0 := by simpa [headC, hct] using hz f hf
      have h1 := hsat (tailEq f) (List.mem_map_of_mem _ hf)
      show LinEq.eval (0 :: ys) f = 0
      unfold LinEq.eval at h1 ⊢
      rw [hct, dotL_cons, hc0]
      simpa [tailEq, hct] using h1
    · replace h : (match solveLin k (rest.map (elimEq e)) with
          | SolveRes.inconsistent => SolveRes.inconsistent
          | SolveRes.underdetermined => SolveRes.underdetermined
          | SolveRes.unique ys =>
            SolveRes.unique ((-e.const - dotL e.coeffs.tail ys) / headC e :: ys)) ≠
          SolveRes.inconsistent := h
      obtain ⟨hne, hperm⟩ := pickPivot_some hp
      have helen : e.coeffs.length = k + 1 :=
        hlen e (hperm.mem_iff.mpr (List.mem_cons_self e rest))
      have hrestlen : ∀ f ∈ rest, f.coeffs.length = k + 1 := fun f hf =>
        hlen f (hperm.mem_iff.mpr (List.mem_cons_of_mem e hf))
      have hmaplen : ∀ g ∈ rest.map (elimEq e), g.coeffs.length = k := by
        intro g hg
        obtain ⟨f, hf, rfl⟩ := List.mem_map.mp hg
        exact elim_len helen (hrestlen f hf)
      have hrecne : solveLin k (rest.map (elimEq e)) ≠ .inconsistent := by
        intro hc
        rw [hc] at h
        exact h rfl
      obtain ⟨ys, hyl, hsat⟩ := ih _ hmaplen hrecne
      exact ⟨(-e.const - dotL e.coeffs.tail ys) / headC e :: ys, by simp [hyl],
        SatAll_perm hperm (sat_of_elim k e rest hne helen hrestlen ys hsat)⟩

/-! ### Indexing the distinct unknowns of the symmetric matrix `P`

`lyapunov` builds `P` from one `sympy` symbol per unordered pair `(i, j)`
(`p_{ij}` with `i ≤ j`, mirrored across the diagonal); the unknowns are
numbered row by row along the upper triangle. -/

/-- `Σ_{t<i} (n - t)`: where row `i` of the upper triangle starts. -/
def triBase (n : Nat) : Nat → Nat
  | 0 => 0
  | i + 1 => triBase n i + (n - i)

/-- Index of the distinct unknown `p_{ij}` (for `i ≤ j`). -/
def pIdx (n i j : Nat) : Nat := triBase n i + (j - i)

/-- The number of distinct unknowns, `n*(n+1)/2`. -/
def numVars (n : Nat) : Nat := triBase n n

theorem triBase_succ (n i : Nat) : triBase n (i + 1) = triBase n i + (n - i) := rfl

theorem triBase_mono (n : Nat) {a b : Nat} (h : a ≤ b) :
    triBase n a ≤ triBase n b := by
  induction b with
  | zero => simp [Nat.le_zero.mp h]
  | succ b ih =>
    rcases Nat.lt_or_ge a (b + 1) with hab | hab
    · exact le_trans (ih (by omega)) (by rw [triBase_succ]; omega)
    · obtain rfl : a = b + 1 := by omega
      exact le_refl _

theorem pIdx_lt (n i j : Nat) (hij : i ≤ j) (hj : j < n) :
    pIdx n i j < numVars n := by
  have h1 : pIdx n i j < triBase n (i + 1) := by
    unfold pIdx
    rw [triBase_succ]
    omega
  have h2 : triBase n (i + 1) ≤ triBase n n := triBase_mono n (by omega)
  unfold numVars
  omega

/-- `numVars` agrees with the spec's count `n*(n+1)/2` of distinct
unknowns. -/
theorem numVars_eq (n : Nat) : 2 * numVars n = n * (n + 1) := by
  suffices h : ∀ i, i ≤ n → 2 * triBase n i = i * (2 * n - i + 1) by
    have h2 := h n (le_refl n)
    have e : 2 * n - n + 1 = n + 1 := by omega
    rw [e] at h2
    unfold numVars
    omega
  intro i
  induction i with
  | zero => intro _; simp [triBase]
  | succ i ih =>
    intro hi
    have hprev := ih (by omega)
    have hin : i < n := by omega
    obtain ⟨d, rfl⟩ : ∃ d, n = i + d + 1 := ⟨n - i - 1, by omega⟩
    have e1 : 2 * (i + d + 1) - (i + 1) + 1 = i + 2 * d + 2 := by omega
    have e2 : 2 * (i + d + 1) - i + 1 = i + 2 * d + 3 := by omega
    have e3 : (i + d + 1) - i = d + 1 := by omega
    have e4 : (i + 1) * (i + 2 * d + 2) = i * (i + 2 * d + 3) + 2 * d + 2 := by ring
    rw [triBase_succ, e3, e1, e4]
    rw [e2] at hprev
    omega

/-- List lookup with default `0` (the only list access the translated
code performs on the unknown vector). -/
def getQ (xs : List ℚ) (k : Nat) : ℚ := (xs.drop k).headD 0

/-- The all-zero coefficient row. -/
def zerosL (V : Nat) : List ℚ := List.replicate V 0

/-- The coefficient row with `c` at position `idx` and zeros elsewhere. -/
def basisL (V idx : Nat) (c : ℚ) : List ℚ :=
  List.replicate idx 0 ++ c :: List.replicate (V - idx - 1) 0

/-- Pointwise sum of coefficient rows. -/
def addL (a b : List ℚ) : List ℚ := List.zipWith (· + ·) a b

/-- The coefficient row accumulating a list of `(coefficient, unknown)`
contributions — how each entry of the symbolic matrix expression collects
multiples of the unknowns. -/
def termsVec (V : Nat) (ts : List (ℚ × Nat)) : List ℚ :=
  ts.foldr (fun t acc => addL (basisL V t.2 t.1) acc) (zerosL V)

theorem length_basisL {V idx : Nat} (c : ℚ) (h : idx < V) :
    (basisL V idx c).length = V := by
  simp [basisL]
  omega

theorem length_addL (a b : List ℚ) : (addL a b).length = min a.length b.length := by
  simp [addL]

theorem length_termsVec {V : Nat} {ts : List (ℚ × Nat)}
    (h : ∀ t ∈ ts, t.2 < V) : (termsVec V ts).length = V := by
  induction ts with
  | nil => simp [termsVec, zerosL]
  | cons t ts ih =>
    have h1 : t.2 < V := h t (List.mem_cons_self t ts)
    have h2 := ih fun u hu => h u (List.mem_cons_of_mem t hu)
    show (addL (basisL V t.2 t.1) (termsVec V ts)).length = V
    rw [length_addL, length_basisL t.1 h1, h2]
    simp

theorem dotL_replicate_zero (m : Nat) (xs : List ℚ) :
    dotL (List.replicate m 0) xs = 0 := by
  induction m generalizing xs with
  | zero => rfl
  | succ m ih =>
    cases xs with
    | nil => rfl
    | cons x xs' =>
      show dotL (0 :: List.replicate m 0) (x :: xs') = 0
      rw [dotL_cons, ih xs']
      ring

theorem dotL_replicate_append (m : Nat) (l xs : List ℚ) :
    dotL (List.replicate m 0 ++ l) xs = dotL l (xs.drop m) := by
  induction m generalizing xs with
  | zero => simp
  | succ m ih =>
    cases xs with
    | nil =>
      rw [List.drop_nil]
      show dotL (0 :: (List.replicate m 0 ++ l)) [] = dotL l []
      rw [dotL_nil_right, dotL_nil_right]
    | cons x xs' =>
      show dotL (0 :: (List.replicate m 0 ++ l)) (x :: xs') = dotL l (xs'.drop m)
      rw [dotL_cons, ih xs']
      ring

theorem dotL_basisL {V idx : Nat} (c : ℚ) (xs : List ℚ) (_h : idx < V) :
    dotL (basisL V idx c) xs = c * getQ xs idx := by
  unfold basisL getQ
  rw [dotL_replicate_append]
  cases hd : xs.drop idx with
  | nil => simp [dotL]
  | cons y ys =>
    rw [dotL_cons, dotL_replicate_zero]
    simp

theorem dotL_addL (a b xs : List ℚ) (h : a.length = b.length) :
    dotL (addL a b) xs = dotL a xs + dotL b xs := by
  induction a generalizing b xs with
  | nil =>
    obtain rfl : b = [] := List.length_eq_zero.mp (by simpa using h.symm)
    simp [addL, dotL]
  | cons a0 as ih =>
    cases b with
    | nil => simp at h
    | cons b0 bs =>
      cases xs with
      | nil => simp [addL, dotL_nil_right]
      | cons x xs' =>
        show dotL ((a0 + b0) :: addL as bs) (x :: xs') = _
        rw [dotL_cons, dotL_cons, dotL_cons, ih bs xs' (by simpa using h)]
        ring

theorem dotL_termsVec {V : Nat} (ts : List (ℚ × Nat)) (xs : List ℚ)
    (h : ∀ t ∈ ts, t.2 < V) :
    dotL (termsVec V ts) xs = (ts.map fun t => t.1 * getQ xs t.2).sum := by
  induction ts with
  | nil => simp [termsVec, zerosL, dotL_replicate_zero]
  | cons t ts ih =>
    have h1 : t.2 < V := h t (List.mem_cons_self t ts)
    have h2 : ∀ u ∈ ts, u.2 < V := fun u hu => h u (List.mem_cons_of_mem t hu)
    show dotL (addL (basisL V t.2 t.1) (termsVec V ts)) xs = _
    rw [dotL_addL _ _ _ (by rw [length_basisL t.1 h1, length_termsVec h2]),
      dotL_basisL t.1 xs h1, ih h2]
    simp

/-! ### The Lyapunov equations and solver call -/

/-- The symmetric matrix built from the unknown vector: entry `(i, j)` is
the distinct unknown for the unordered pair, mirrored across the
diagonal. -/
def symFromList (n : Nat) (xs : List ℚ) : Mat :=
  Mat.ofFn n n fun i j => getQ xs (pIdx n (min i j) (max i j))

/-- The `(coefficient, unknown)` contributions to entry `(r, s)` of
`A^T * P + P * A`:  `Σ_i A[i,r] * P[i,s] + Σ_i P[r,i] * A[i,s]`. -/
def lyapTermsC (A : Mat) (n r s : Nat) : List (ℚ × Nat) :=
  ((List.range n).map fun i => (A.entry i r, pIdx n (min i s) (max i s))) ++
  ((List.range n).map fun i => (A.entry i s, pIdx n (min r i) (max r i)))

/-- Entry `(r, s)` of the continuous-time equation
`A^T * P + P * A + I = 0` as an affine equation in the unknowns. -/
def lyapEqC (A : Mat) (n r s : Nat) : LinEq :=
  ⟨termsVec (numVars n) (lyapTermsC A n r s), if r = s then 1 else 0⟩

/-- All `n × n` entries of the continuous-time equation. -/
def lyapSystemC (A : Mat) (n : Nat) : List LinEq :=
  (List.range n).flatMap fun r => (List.range n).map fun s => lyapEqC A n r s

/-- The `(coefficient, unknown)` contributions to entry `(r, s)` of
`A^T * P * A - P`. -/
def lyapTermsD (A : Mat) (n r s : Nat) : List (ℚ × Nat) :=
  ((List.range n).flatMap fun i => (List.range n).map fun j =>
    (A.entry i r * A.entry j s, pIdx n (min i j) (max i j))) ++
  [((-1 : ℚ), pIdx n (min r s) (max r s))]

/-- Entry `(r, s)` of the discrete-time equation
`A^T * P * A - P + I = 0` as an affine equation in the unknowns. -/
def lyapEqD (A : Mat) (n r s : Nat) : LinEq :=
  ⟨termsVec (numVars n) (lyapTermsD A n r s), if r = s then 1 else 0⟩

/-- All `n × n` entries of the discrete-time equation. -/
def lyapSystemD (A : Mat) (n : Nat) : List LinEq :=
  (List.range n).flatMap fun r => (List.range n).map fun s => lyapEqD A n r s

/-- Modelled from the spec: the continuous/discrete predicate lives on the
`LinearTimeInvariant` base class (`tcontrol/lti.py`), which is not under
`src/`; §3 of the spec says a sampling time that is absent (`None`) or
zero means continuous time. -/
def StateSpace.is_ctime (s : StateSpace) : Bool :=
  decide (s.dt = none ∨ s.dt = some 0)

/-- `StateSpace.lyapunov`, translated: build the symmetric symbolic matrix
over `n*(n+1)/2` distinct unknowns, pick the continuous or discrete
equation by `is_ctime`, and hand the system to the solver.
`sym.solve` returning an empty result (an inconsistent system — or the
degenerate `n = 0` system with no unknowns) makes the source return
`None`; a complete assignment is substituted and returned as a numeric
matrix; a parametric solution leaves symbols behind and
`np.asarray(..., dtype=float)` raises `TypeError`. -/
def StateSpace.lyapunov (sys : StateSpace) : Except Err (Option Mat) :=
  let n := sys.A.rows
  let eqs := if sys.is_ctime then lyapSystemC sys.A n else lyapSystemD sys.A n
  match solveLin (numVars n) eqs with
  | .inconsistent => .ok none
  | .underdetermined => .error .typeErr
  | .unique xs => if xs.isEmpty then .ok none else .ok (some (symFromList n xs))

theorem lyapTermsC_bound (A : Mat) (n r s : Nat) (hr : r < n) (hs : s < n) :
    ∀ t ∈ lyapTermsC A n r s, t.2 < numVars n := by
  intro t ht
  rcases List.mem_append.mp ht with h | h <;> obtain ⟨i, hi, rfl⟩ := List.mem_map.mp h
  · exact pIdx_lt n _ _ (min_le_max) (max_lt (List.mem_range.mp hi) hs)
  · exact pIdx_lt n _ _ (min_le_max) (max_lt hr (List.mem_range.mp hi))

theorem lyapTermsD_bound (A : Mat) (n r s : Nat) (hr : r < n) (hs : s < n) :
    ∀ t ∈ lyapTermsD A n r s, t.2 < numVars n := by
  intro t ht
  rcases List.mem_append.mp ht with h | h
  · obtain ⟨i, hi, h2⟩ := List.mem_flatMap.mp h
    obtain ⟨j, hj, rfl⟩ := List.mem_map.mp h2
    exact pIdx_lt n _ _ (min_le_max)
      (max_lt (List.mem_range.mp hi) (List.mem_range.mp hj))
  · obtain rfl : t = ((-1 : ℚ), pIdx n (min r s) (max r s)) := by simpa using h
    exact pIdx_lt n _ _ (min_le_max) (max_lt hr hs)

theorem lyapSystemC_len (A : Mat) (n : Nat) :
    ∀ e ∈ lyapSystemC A n, e.coeffs.length = numVars n := by
  intro e he
  obtain ⟨r, hr, h2⟩ := List.mem_flatMap.mp he
  obtain ⟨s, hs, rfl⟩ := List.mem_map.mp h2
  exact length_termsVec
    (lyapTermsC_bound A n r s (List.mem_range.mp hr) (List.mem_range.mp hs))

theorem lyapSystemD_len (A : Mat) (n : Nat) :
    ∀ e ∈ lyapSystemD A n, e.coeffs.length = numVars n := by
  intro e he
  obtain ⟨r, hr, h2⟩ := List.mem_flatMap.mp he
  obtain ⟨s, hs, rfl⟩ := List.mem_map.mp h2
  exact length_termsVec
    (lyapTermsD_bound A n r s (List.mem_range.mp hr) (List.mem_range.mp hs))

theorem lyapEqC_mem (A : Mat) (n r s : Nat) (hr : r < n) (hs : s < n) :
    lyapEqC A n r s ∈ lyapSystemC A n :=
  List.mem_flatMap.mpr ⟨r, List.mem_range.mpr hr,
    List.mem_map.mpr ⟨s, List.mem_range.mpr hs, rfl⟩⟩

theorem lyapEqD_mem (A : Mat) (n r s : Nat) (hr : r < n) (hs : s < n) :
    lyapEqD A n r s ∈ lyapSystemD A n :=
  List.mem_flatMap.mpr ⟨r, List.mem_range.mpr hr,
    List.mem_map.mpr ⟨s, List.mem_range.mpr hs, rfl⟩⟩

theorem Mat.ofFn_eq_ofFn {r1 c1 r2 c2 : Nat} {f g : Nat → Nat → ℚ}
    (hr : r1 = r2) (hc : c1 = c2) (h : ∀ i < r1, ∀ j < c1, f i j = g i j) :
    Mat.ofFn r1 c1 f = Mat.ofFn r2 c2 g := by
  subst hr
  subst hc
  exact Mat.ofFn_congr h

theorem Mat.entry_mul (M N : Mat) (i j : Nat) (hi : i < M.rows) (hj : j < N.cols) :
    (M.mul N).entry i j =
      ((List.range M.cols).map fun t => M.entry i t * N.entry t j).sum :=
  Mat.entry_ofFn _ _ _ i j hi hj

theorem Mat.entry_transpose (M : Mat) (i j : Nat) (hi : i < M.cols) (hj : j < M.rows) :
    M.transpose.entry i j = M.entry j i :=
  Mat.entry_ofFn _ _ _ i j hi hj

theorem Mat.entry_add (M N : Mat) (i j : Nat) (hi : i < M.rows) (hj : j < M.cols) :
    (M.add N).entry i j = M.entry i j + N.entry i j :=
  Mat.entry_ofFn _ _ _ i j hi hj

theorem Mat.entry_sub (M N : Mat) (i j : Nat) (hi : i < M.rows) (hj : j < M.cols) :
    (M.sub N).entry i j = M.entry i j - N.entry i j :=
  Mat.entry_ofFn _ _ _ i j hi hj

theorem Mat.entry_neg (M : Mat) (i j : Nat) (hi : i < M.rows) (hj : j < M.cols) :
    M.neg.entry i j = -(M.entry i j) :=
  Mat.entry_ofFn _ _ _ i j hi hj

theorem Mat.entry_eye (n i j : Nat) (hi : i < n) (hj : j < n) :
    (Mat.eye n).entry i j = if i = j then 1 else 0 :=
  Mat.entry_ofFn _ _ _ i j hi hj

theorem symFromList_entry (n : Nat) (xs : List ℚ) (i j : Nat)
    (hi : i < n) (hj : j < n) :
    (symFromList n xs).entry i j = getQ xs (pIdx n (min i j) (max i j)) :=
  Mat.entry_ofFn _ _ _ i j hi hj

theorem lyapEqC_eval (A : Mat) (n r s : Nat) (hr : r < n) (hs : s < n)
    (xs : List ℚ) :
    LinEq.eval xs (lyapEqC A n r s) =
      ((List.range n).map fun i =>
        A.entry i r * getQ xs (pIdx n (min i s) (max i s))).sum +
      ((List.range n).map fun i =>
        A.entry i s * getQ xs (pIdx n (min r i) (max r i))).sum +
      (if r = s then 1 else 0) := by
  unfold lyapEqC LinEq.eval
  rw [dotL_termsVec _ _ (lyapTermsC_bound A n r s hr hs)]
  unfold lyapTermsC
  rw [List.map_append, List.sum_append, List.map_map, List.map_map]
  rfl

/-- Any satisfying assignment of the continuous-time system makes
`A^T X + X A = -I` hold for the mirrored matrix `X`. -/
theorem lyapC_residual (A : Mat) {n : Nat} (hA : A.rows = n) (hAc : A.cols = n)
    {xs : List ℚ} (hsat : SatAll xs (lyapSystemC A n)) :
    (A.transpose.mul (symFromList n xs)).add ((symFromList n xs).mul A) =
      (Mat.eye n).neg := by
  unfold Mat.add Mat.neg
  apply Mat.ofFn_eq_ofFn (by simp [hAc]) (by simp [symFromList])
  intro i hi j hj
  have hi' : i < n := by simpa [hAc] using hi
  have hj' : j < n := by simpa [symFromList] using hj
  have hE := hsat (lyapEqC A n i j) (lyapEqC_mem A n i j hi' hj')
  rw [lyapEqC_eval A n i j hi' hj' xs] at hE
  have e1 : (A.transpose.mul (symFromList n xs)).entry i j =
      ((List.range n).map fun t =>
        A.entry t i * getQ xs (pIdx n (min t j) (max t j))).sum := by
    rw [Mat.entry_mul _ _ i j (by simpa [hAc] using hi') (by simpa using hj'),
      show A.transpose.cols = n by simp [hA]]
    refine congrArg List.sum (List.map_congr_left fun t ht => ?_)
    rw [Mat.entry_transpose A i t (by simpa [hAc] using hi')
        (by simpa [hA] using List.mem_range.mp ht),
      symFromList_entry n xs t j (List.mem_range.mp ht) hj']
  have e2 : ((symFromList n xs).mul A).entry i j =
      ((List.range n).map fun t =>
        A.entry t j * getQ xs (pIdx n (min i t) (max i t))).sum := by
    rw [Mat.entry_mul _ _ i j (by simpa using hi') (by simpa [hAc] using hj'),
      show (symFromList n xs).cols = n by simp [symFromList]]
    refine congrArg List.sum (List.map_congr_left fun t ht => ?_)
    rw [symFromList_entry n xs i t hi' (List.mem_range.mp ht)]
    ring
  rw [e1, e2, Mat.entry_eye n i j hi' hj']
  linarith [hE]

theorem sum_mapRange (n : Nat) (f : Nat → ℚ) :
    ((List.range n).map f).sum = ∑ i ∈ Finset.range n, f i := by
  induction n with
  | zero => simp
  | succ n ih =>
    rw [List.range_succ, List.map_append, List.sum_append, Finset.sum_range_succ, ih]
    simp

theorem sum_flatMapQ (l : List Nat) (f : Nat → List ℚ) :
    (l.flatMap f).sum = (l.map fun a => (f a).sum).sum := by
  induction l with
  | nil => rfl
  | cons a as ih => simp [List.sum_append, ih]

theorem lyapEqD_eval (A : Mat) (n r s : Nat) (hr : r < n) (hs : s < n)
    (xs : List ℚ) :
    LinEq.eval xs (lyapEqD A n r s) =
      ((List.range n).map fun i =>
        ((List.range n).map fun j =>
          A.entry i r * A.entry j s * getQ xs (pIdx n (min i j) (max i j))).sum).sum +
      (-1) * getQ xs (pIdx n (min r s) (max r s)) +
      (if r = s then 1 else 0) := by
  unfold lyapEqD LinEq.eval
  rw [dotL_termsVec _ _ (lyapTermsD_bound A n r s hr hs)]
  unfold lyapTermsD
  rw [List.map_append, List.sum_append, List.map_flatMap, sum_flatMapQ]
  simp only [List.map_map, List.map_cons, List.map_nil, List.sum_cons, List.sum_nil]
  rw [add_zero]
  congr 2

/-- Any satisfying assignment of the discrete-time system makes
`A^T X A - X = -I` hold for the mirrored matrix `X`. -/
theorem lyapD_residual (A : Mat) {n : Nat} (hA : A.rows = n) (hAc : A.cols = n)
    {xs : List ℚ} (hsat : SatAll xs (lyapSystemD A n)) :
    ((A.transpose.mul (symFromList n xs)).mul A).sub (symFromList n xs) =
      (Mat.eye n).neg := by
  unfold Mat.sub Mat.neg
  apply Mat.ofFn_eq_ofFn (by simp [hAc]) (by simp [hAc])
  intro i hi j hj
  have hi' : i < n := by simpa [hAc] using hi
  have hj' : j < n := by simpa [hAc] using hj
  have hE := hsat (lyapEqD A n i j) (lyapEqD_mem A n i j hi' hj')
  rw [lyapEqD_eval A n i j hi' hj' xs] at hE
  have e1 : ((A.transpose.mul (symFromList n xs)).mul A).entry i j =
      ((List.range n).map fun t =>
        ((List.range n).map fun u =>
          A.entry u i * getQ xs (pIdx n (min u t) (max u t))).sum * A.entry t j).sum := by
    rw [Mat.entry_mul _ _ i j (by simpa [hAc] using hi') (by simpa [hAc] using hj'),
      show (A.transpose.mul (symFromList n xs)).cols = n by simp [symFromList]]
    refine congrArg List.sum (List.map_congr_left fun t ht => ?_)
    have ht' : t < n := List.mem_range.mp ht
    rw [Mat.entry_mul _ _ i t (by simpa [hAc] using hi')
        (by simpa [symFromList] using ht'),
      show A.transpose.cols = n by simp [hA]]
    congr 1
    refine congrArg List.sum (List.map_congr_left fun u hu => ?_)
    have hu' : u < n := List.mem_range.mp hu
    rw [Mat.entry_transpose A i u (by simpa [hAc] using hi') (by simpa [hA] using hu'),
      symFromList_entry n xs u t hu' ht']
  have conv1 : ((List.range n).map fun t =>
      ((List.range n).map fun u =>
        A.entry u i * getQ xs (pIdx n (min u t) (max u t))).sum * A.entry t j).sum =
      ((List.range n).map fun u =>
        ((List.range n).map fun t =>
          A.entry u i * A.entry t j * getQ xs (pIdx n (min u t) (max u t))).sum).sum := by
    simp only [sum_mapRange]
    rw [← Finset.sum_comm]
    refine Finset.sum_congr rfl fun t _ => ?_
    rw [Finset.sum_mul]
    refine Finset.sum_congr rfl fun u _ => ?_
    ring
  rw [e1, conv1, symFromList_entry n xs i j hi' hj', Mat.entry_eye n i j hi' hj']
  linarith [hE]

theorem rowGet (r c : Nat) (f : Nat → Nat → ℚ) (i : Nat) :
    ((List.range r).map fun i => (List.range c).map fun j => f i j).getD i [] =
      if i < r then (List.range c).map fun j => f i j else [] := by
  by_cases hi : i < r
  · rw [if_pos hi, List.getD_eq_getElem?_getD, List.getElem?_map, List.getElem?_range hi]
    rfl
  · rw [if_neg hi, List.getD_eq_getElem?_getD,
      List.getElem?_eq_none (by simpa using Nat.le_of_not_lt hi)]
    rfl

theorem Mat.entry_ofFn_out (r c : Nat) (f : Nat → Nat → ℚ) (i j : Nat)
    (h : r ≤ i ∨ c ≤ j) : (Mat.ofFn r c f).entry i j = 0 := by
  have hd : (Mat.ofFn r c f).data =
      (List.range r).map fun i => (List.range c).map fun j => f i j := rfl
  unfold Mat.entry
  rw [hd, rowGet r c f i]
  by_cases hi : i < r
  · rw [if_pos hi]
    rcases h with h | h
    · omega
    · rw [List.getD_eq_getElem?_getD, List.getElem?_eq_none (by simpa using h)]
      rfl
  · rw [if_neg hi]
    simp

theorem symFromList_symm (n : Nat) (xs : List ℚ) (i j : Nat) :
    (symFromList n xs).entry i j = (symFromList n xs).entry j i := by
  unfold symFromList
  by_cases hi : i < n <;> by_cases hj : j < n
  · rw [Mat.entry_ofFn _ _ _ i j hi hj, Mat.entry_ofFn _ _ _ j i hj hi,
      min_comm, max_comm]
  · rw [Mat.entry_ofFn_out n n _ i j (Or.inr (by omega)),
      Mat.entry_ofFn_out n n _ j i (Or.inl (by omega))]
  · rw [Mat.entry_ofFn_out n n _ i j (Or.inl (by omega)),
      Mat.entry_ofFn_out n n _ j i (Or.inr (by omega))]
  · rw [Mat.entry_ofFn_out n n _ i j (Or.inl (by omega)),
      Mat.entry_ofFn_out n n _ j i (Or.inl (by omega))]

/-- C6: `lyapunov` solves `A^T X + X A = -I` for continuous-time systems
and `A^T X A - X = -I` for discrete-time systems, over a symmetric matrix
of `n*(n+1)/2` distinct unknowns mirrored across the diagonal: every
returned matrix is a symmetric numeric solution of the appropriate
equation, and whenever no symmetric solution exists the function returns
the null result `.ok none` — a return value, not a raised error. -/
theorem lyapunov_solves (sys : StateSpace) (hA : sys.A.rows = sys.A.cols) :
    2 * numVars sys.A.rows = sys.A.rows * (sys.A.rows + 1) ∧
    (∀ X, sys.lyapunov = .ok (some X) →
      (X.rows = sys.A.rows ∧ X.cols = sys.A.rows ∧
        ∀ i j, X.entry i j = X.entry j i) ∧
      (sys.is_ctime = true →
        (sys.A.transpose.mul X).add (X.mul sys.A) = (Mat.eye sys.A.rows).neg) ∧
      (sys.is_ctime = false →
        ((sys.A.transpose.mul X).mul sys.A).sub X = (Mat.eye sys.A.rows).neg)) ∧
    ((¬ ∃ X, (∀ i j, X.entry i j = X.entry j i) ∧
        (if sys.is_ctime then
          (sys.A.transpose.mul X).add (X.mul sys.A) = (Mat.eye sys.A.rows).neg
         else
          ((sys.A.transpose.mul X).mul sys.A).sub X = (Mat.eye sys.A.rows).neg)) →
      sys.lyapunov = .ok none) := by
  have hcomp : sys.lyapunov =
      (match solveLin (numVars sys.A.rows)
          (if sys.is_ctime then lyapSystemC sys.A sys.A.rows
           else lyapSystemD sys.A sys.A.rows) with
        | SolveRes.inconsistent => (.ok none : Except Err (Option Mat))
        | SolveRes.underdetermined => .error .typeErr
        | SolveRes.unique xs =>
          if xs.isEmpty then .ok none
          else .ok (some (symFromList sys.A.rows xs))) := rfl
  refine ⟨numVars_eq sys.A.rows, ?_, ?_⟩
  · intro X h
    rw [hcomp] at h
    rcases hsol : solveLin (numVars sys.A.rows)
        (if sys.is_ctime then lyapSystemC sys.A sys.A.rows
         else lyapSystemD sys.A sys.A.rows) with _ | xs | _ <;> rw [hsol] at h
    · simp at h
    · replace h : (if xs.isEmpty = true then (Except.ok none : Except Err (Option Mat))
          else Except.ok (some (symFromList sys.A.rows xs))) = Except.ok (some X) := h
      by_cases hemp : xs.isEmpty
      · rw [if_pos hemp] at h
        simp at h
      · rw [if_neg hemp] at h
        obtain rfl : symFromList sys.A.rows xs = X := by simpa using h
        refine ⟨⟨rfl, rfl, symFromList_symm sys.A.rows xs⟩, ?_, ?_⟩
        · intro hct
          rw [if_pos (by simp [hct])] at hsol
          obtain ⟨_, hsat⟩ := solveLin_unique_sat _ _
            (lyapSystemC_len sys.A sys.A.rows) xs hsol
          exact lyapC_residual sys.A rfl hA.symm hsat
        · intro hct
          rw [if_neg (by simp [hct])] at hsol
          obtain ⟨_, hsat⟩ := solveLin_unique_sat _ _
            (lyapSystemD_len sys.A sys.A.rows) xs hsol
          exact lyapD_residual sys.A rfl hA.symm hsat
    · simp at h
  · intro hno
    by_contra hne
    apply hno
    rcases hsol : solveLin (numVars sys.A.rows)
        (if sys.is_ctime then lyapSystemC sys.A sys.A.rows
         else lyapSystemD sys.A sys.A.rows) with _ | xs | _
    · exact absurd (by rw [hcomp, hsol]) hne
    · by_cases hemp : xs.isEmpty
      · exact absurd (by rw [hcomp, hsol]; simp [hemp]) hne
      · obtain ⟨_, hsat⟩ : xs.length = numVars sys.A.rows ∧
            SatAll xs (if sys.is_ctime then lyapSystemC sys.A sys.A.rows
              else lyapSystemD sys.A sys.A.rows) := by
          by_cases hct : sys.is_ctime
          · rw [if_pos (by simp [hct])] at hsol ⊢
            exact solveLin_unique_sat _ _ (lyapSystemC_len sys.A sys.A.rows) xs hsol
          · rw [if_neg (by simp [hct])] at hsol ⊢
            exact solveLin_unique_sat _ _ (lyapSystemD_len sys.A sys.A.rows) xs hsol
        refine ⟨symFromList sys.A.rows xs, symFromList_symm sys.A.rows xs, ?_⟩
        by_cases hct : sys.is_ctime
        · rw [if_pos hct]
          rw [if_pos (by simp [hct])] at hsat
          exact lyapC_residual sys.A rfl hA.symm hsat
        · rw [if_neg hct]
          rw [if_neg (by simp [hct])] at hsat
          exact lyapD_residual sys.A rfl hA.symm hsat
    · obtain ⟨xs, _, hsat⟩ := solveLin_consistent_sat (numVars sys.A.rows)
        (if sys.is_ctime then lyapSystemC sys.A sys.A.rows
         else lyapSystemD sys.A sys.A.rows)
        (by
          by_cases hct : sys.is_ctime
          · rw [if_pos (by simp [hct])]
            exact lyapSystemC_len sys.A sys.A.rows
          · rw [if_neg (by simp [hct])]
            exact lyapSystemD_len sys.A sys.A.rows)
        (by rw [hsol]; simp)
      refine ⟨symFromList sys.A.rows xs, symFromList_symm sys.A.rows xs, ?_⟩
      by_cases hct : sys.is_ctime
      · rw [if_pos hct]
        rw [if_pos (by simp [hct])] at hsat
        exact lyapC_residual sys.A rfl hA.symm hsat
      · rw [if_neg hct]
        rw [if_neg (by simp [hct])] at hsat
        exact lyapD_residual sys.A rfl hA.symm hsat

/-- A concrete stable one-state continuous system, `A = [[-1]]`. -/
def lyapEx : StateSpace :=
  ⟨⟨1, 1, [[-1]]⟩, ⟨1, 1, [[1]]⟩, ⟨1, 1, [[1]]⟩, ⟨1, 1, [[0]]⟩, none⟩

/-- The matrix `lyapunov` returns for `lyapEx`: `X = [[1/2]]` solves
`A^T X + X A = -I` for `A = [[-1]]`. -/
def lyapXval : Mat := ⟨1, 1, [[1/2]]⟩

/-- Witness for C6: at the concrete system `lyapEx` the solver returns
`lyapXval`, which is square, symmetric and solves the continuous
equation. -/
theorem lyapunov_solves_witness :
    (lyapXval.rows = lyapEx.A.rows ∧ lyapXval.cols = lyapEx.A.rows ∧
      ∀ i j, lyapXval.entry i j = lyapXval.entry j i) ∧
    (lyapEx.is_ctime = true →
      (lyapEx.A.transpose.mul lyapXval).add (lyapXval.mul lyapEx.A) =
        (Mat.eye lyapEx.A.rows).neg) ∧
    (lyapEx.is_ctime = false →
      ((lyapEx.A.transpose.mul lyapXval).mul lyapEx.A).sub lyapXval =
        (Mat.eye lyapEx.A.rows).neg) :=
  (lyapunov_solves lyapEx rfl).2.1 lyapXval (by
    norm_num [lyapEx, lyapXval, StateSpace.lyapunov, StateSpace.is_ctime,
      lyapSystemC, lyapEqC, lyapTermsC, termsVec, basisL, addL, zerosL,
      numVars, triBase, pIdx, solveLin, pickPivot, headC, elimEq, tailEq,
      dotL, getQ, symFromList, Mat.ofFn, Mat.entry, List.range_succ])

end TinyControl
